import Mathlib

/-!
Verification of the natatorium object-pool library (shallow embedding).

The embedding models the sequential semantics of the lock-free slab:
atomics become plain fields, and each public operation is one atomic
step of the state machine.  `usize` counters are modelled as `Nat`;
all reference-count decrements tracked by the claims happen at positive
counts, so wrap-around of `fetch_sub` never matters for the theorems.
-/

set_option maxRecDepth 10000

namespace Natatorium

/-- The user-supplied Clear capability (src/traits.rs): resets a value to its
empty state while retaining capacity.  Modelled as a pure function. -/
class Clear (T : Type) where
  clear : T → T

instance : Clear Nat := ⟨fun _ => 0⟩

/-- One cell of the pool (src/slab/mod.rs, struct Slot): the stored item, its
stable index, an atomic reference count and an atomic free-list next pointer. -/
structure Slot (T : Type) where
  item : T
  idx : Nat
  ref_count : Nat
  next : Nat
deriving DecidableEq

/-- Slot::new (src/slab/mod.rs lines 196-203): ref_count 0, next = idx + 1. -/
def Slot.new {T : Type} (item : T) (idx : Nat) : Slot T :=
  { item := item, ref_count := 0, next := idx + 1, idx := idx }

/-- The private error taxonomy (src/slab/mod.rs, enum Error). -/
inductive SlabError
  | AtCapacity
  | ShouldRetry
deriving DecidableEq

/-- The Store capability (src/slab/mod.rs, trait Store): indexed slot lookup
and a slot count.  The Rust trait passes a closure to with_slot and mutates
through interior mutability; the pure embedding splits that into a read
(getSlot) and a write at the same resolved cell (setSlot). -/
structure StoreOps (S : Type) (T : Type) where
  getSlot : S → Nat → Option (Slot T)
  setSlot : S → Nat → Slot T → S
  slot_count : S → Nat

/-- The free-list controller (src/slab/mod.rs, struct Slab): a storage plus the
atomic free-list head and the used counter. -/
structure Slab (S : Type) where
  inner : S
  head : Nat
  used : Nat
deriving DecidableEq

/-- Slab::new (src/slab/mod.rs lines 49-68): head = 0, used = 0. -/
def Slab.new {S : Type} (inner : S) : Slab S :=
  { inner := inner, head := 0, used := 0 }

/-- Slab::try_checkout (src/slab/mod.rs lines 156-190), one sequential step:
load head; report AtCapacity past the end; look the slot up; try_acquire
(CAS ref_count 0 to 1); re-check the head snapshot (the CAS on head always
succeeds in a sequential step, but the branch is kept); on success clear the
item, bump used and move head to the slot's next. -/
def Slab.try_checkout {S T : Type} [Clear T] (ops : StoreOps S T) (s : Slab S) :
    Except SlabError (Nat × Slab S) :=
  let idx := s.head
  let len := ops.slot_count s.inner
  if idx ≥ len then .error .AtCapacity
  else
    match ops.getSlot s.inner idx with
    | none => .error .AtCapacity
    | some slot =>
      if slot.ref_count = 0 then
        let next := slot.next
        if s.head = idx then
          let slot' : Slot T :=
            { slot with ref_count := 1, item := Clear.clear slot.item }
          .ok (idx, { inner := ops.setSlot s.inner idx slot',
                      head := next, used := s.used + 1 })
        else .error .ShouldRetry
      else .error .ShouldRetry

/-- Slot::drop_ref (src/slab/mod.rs lines 225-232): release() decrements the
reference count; if it went from 1 to 0, swap head with the slot's own index,
store the previous head into the slot's next field and decrement used. -/
def Slab.drop_ref {S T : Type} (ops : StoreOps S T) (s : Slab S) (i : Nat) :
    Slab S :=
  match ops.getSlot s.inner i with
  | none => s
  | some slot =>
    if slot.ref_count = 1 then
      let prev := s.head
      { inner := ops.setSlot s.inner i
          ({ slot with ref_count := 0, next := prev }),
        head := slot.idx, used := s.used - 1 }
    else
      { s with
        inner := ops.setSlot s.inner i ({ slot with ref_count := slot.ref_count - 1 }) }

/-- Slot::clone_ref (src/slab/mod.rs lines 221-223): relaxed increment of the
reference count.  The growable pool reaches it through with_slot (Option
dropped); the fixed pool through the slot pointer. -/
def Slab.clone_ref {S T : Type} (ops : StoreOps S T) (s : Slab S) (i : Nat) :
    Slab S :=
  match ops.getSlot s.inner i with
  | none => s
  | some slot =>
    { s with
      inner := ops.setSlot s.inner i ({ slot with ref_count := slot.ref_count + 1 }) }

/-- Owned::detach_with (src/fixed.rs lines 177-179) and Owned::detach
(src/growable.rs lines 232-239): mem::replace of the slot's item with a fresh
value v, returning the old item.  Everything else is untouched. -/
def Slab.detach_with {S T : Type} (ops : StoreOps S T) (s : Slab S) (i : Nat)
    (v : T) : Option (T × Slab S) :=
  match ops.getSlot s.inner i with
  | none => none
  | some slot =>
    some (slot.item,
      { s with inner := ops.setSlot s.inner i ({ slot with item := v }) })

/-! ### ArrayStore (src/slab/mod.rs lines 273-294)
A boxed contiguous array of slots; modelled as a Lean list. -/

/-- ArrayStore: Box<[CausalCell<Slot<T>>]>. -/
abbrev ArrayStore (T : Type) := List (Slot T)

/-- new_array (src/slab/mod.rs lines 273-279): cap slots built by the stateful
factory, slot i built from the i-th factory call with index i. -/
def new_array {T : Type} (cap : Nat) (f : Nat → T) : ArrayStore T :=
  (List.range cap).map (fun i => Slot.new (f i) i)

/-- Store impl for ArrayStore (src/slab/mod.rs lines 281-294): with_slot is
bounds-checked get, slot_count is the length. -/
def arrayOps (T : Type) : StoreOps (ArrayStore T) T :=
  { getSlot := fun s i => s.get? i
    setSlot := fun s i sl => s.set i sl
    slot_count := fun s => s.length }

/-! ### BlockList (src/slab/list.rs)
An atomically linked list of geometrically growing blocks, exported from the
crate root as SlabList.  Sequentially the link structure is just the list of
blocks in order; push_idx/last_idx belong to the Stack push path, which the
slab never uses, and are omitted. -/

/-- usize::next_power_of_two by fuelled structural recursion (so the kernel can
evaluate it): the smallest power of two that is at least n, with 0 and 1
mapping to 1, computed as twice the rounding of the halved (rounded-up)
argument. -/
def nextPow2Fuel : Nat → Nat → Nat
  | 0, _ => 1
  | fuel + 1, n => if n ≤ 1 then 1 else 2 * nextPow2Fuel fuel ((n + 1) / 2)

/-- usize::next_power_of_two (0 maps to 1). -/
def nextPowerOfTwo (n : Nat) : Nat := nextPow2Fuel n n

/-- usize::is_power_of_two. -/
def isPowerOfTwo (n : Nat) : Bool := n != 0 && nextPowerOfTwo n == n

/-- One block (src/slab/list.rs, struct Block): a fixed-length boxed array of
cells. -/
structure Block (A : Type) where
  cells : List A
deriving DecidableEq

/-- The block list (src/slab/list.rs, struct List): blocks from head to tail;
an empty list stands for null head and tail pointers. -/
structure SlabList (A : Type) where
  blocks : List (Block A)
deriving DecidableEq

/-- List::new (src/slab/list.rs lines 48-64): null head and tail. -/
def SlabList.new {A : Type} : SlabList A := { blocks := [] }

/-- List::INITIAL_CAPACITY (src/slab/list.rs line 42). -/
def SlabList.INITIAL_CAPACITY : Nat := 8

/-- List::from_fn_with_capacity (src/slab/list.rs lines 66-80): round the
capacity up to a power of two and allocate a single block, the j-th cell
built from the j-th call of the FnMut closure (modelled as g j). -/
def SlabList.from_fn_with_capacity {A : Type} (capacity : Nat) (g : Nat → A) :
    SlabList A :=
  let capacity := if isPowerOfTwo capacity then capacity else nextPowerOfTwo capacity
  { blocks := [⟨(List.range capacity).map g⟩] }

/-- List::tail_capacity (src/slab/list.rs lines 227-232): the tail block's
length, or 0 when tail is null. -/
def SlabList.tail_capacity {A : Type} (l : SlabList A) : Nat :=
  match l.blocks.getLast? with
  | none => 0
  | some b => b.cells.length

/-- List::capacity (src/slab/list.rs lines 151-172): 0 when head is null; the
tail capacity when head and tail blocks have the same size; otherwise twice
the tail capacity. -/
def SlabList.capacity {A : Type} (l : SlabList A) : Nat :=
  match l.blocks.head? with
  | none => 0
  | some h =>
    if l.tail_capacity = h.cells.length then l.tail_capacity
    else l.tail_capacity * 2

/-- The head-to-tail walk of with_idx (src/slab/list.rs lines 109-122) on the
block lengths: subtract each block's capacity until the index is in range,
yielding the block number and offset. -/
def walkLens : List Nat → Nat → Option (Nat × Nat)
  | [], _ => none
  | n :: rest, i =>
    if i < n then some (0, i)
    else (walkLens rest (i - n)).map (fun p => (p.1 + 1, p.2))

/-- The cell addressed by List::with_idx (src/slab/list.rs lines 91-123), as a
block number and offset: indices past the reported capacity are rejected;
indices above the tail capacity are taken in the tail block at offset
i - tail_capacity (bounds-checked by Block's get); the rest walk the blocks
from the head. -/
def SlabList.resolve {A : Type} (l : SlabList A) (i : Nat) : Option (Nat × Nat) :=
  if i > l.capacity then none
  else
    let half := l.tail_capacity
    if i > half then
      match l.blocks.getLast? with
      | none => none
      | some tb =>
        if i - half < tb.cells.length then some (l.blocks.length - 1, i - half)
        else none
    else walkLens (l.blocks.map (fun b => b.cells.length)) i

/-- List::with_idx (src/slab/list.rs lines 91-123): the cell the closure is
invoked on, or none. -/
def SlabList.with_idx {A : Type} (l : SlabList A) (i : Nat) : Option A :=
  match l.resolve i with
  | none => none
  | some (k, o) =>
    match l.blocks.get? k with
    | none => none
    | some b => b.cells.get? o

/-- Writing through the closure of List::with_idx: replace the resolved cell. -/
def SlabList.setIdx {A : Type} (l : SlabList A) (i : Nat) (a : A) : SlabList A :=
  match l.resolve i with
  | none => l
  | some (k, o) =>
    match l.blocks.get? k with
    | none => l
    | some b => { blocks := l.blocks.set k ⟨b.cells.set o a⟩ }

/-- List::extend_with (src/slab/list.rs lines 82-89) in a sequential step:
cons_first (lines 175-194) allocates a block of INITIAL_CAPACITY when the
list is empty; try_cons (lines 196-225) appends a block of twice the tail
capacity (tail.next_block is null and the tail CAS succeeds sequentially).
Cell j of the new block is the (start+j)-th call of the FnMut closure. -/
def SlabList.extend_with {A : Type} (l : SlabList A) (g : Nat → A) (start : Nat) :
    SlabList A :=
  match l.blocks with
  | [] => { blocks := [⟨(List.range SlabList.INITIAL_CAPACITY).map (fun j => g (start + j))⟩] }
  | _ =>
    let capacity := l.tail_capacity * 2
    { blocks := l.blocks ++ [⟨(List.range capacity).map (fun j => g (start + j))⟩] }

/-- The actual number of slots across all blocks (what the spec calls total
capacity in the geometric growth invariant). -/
def SlabList.slotTotal {A : Type} (l : SlabList A) : Nat :=
  (l.blocks.map (fun b => b.cells.length)).sum

/-- All cells in block order: cell of flat index i is the i-th slot actually
stored by the list. -/
def SlabList.flatCells {A : Type} (l : SlabList A) : List A :=
  (l.blocks.map (fun b => b.cells)).flatten

/-- Look a block coordinate (block number, offset) up in a block list. -/
def lookupCoord {A : Type} (blocks : List (Block A)) : Option (Nat × Nat) → Option A
  | none => none
  | some (k, o) =>
    match blocks.get? k with
    | none => none
    | some b => b.cells.get? o

/-- Store impl for List<Slot<T>> (src/slab/mod.rs lines 296-307): with_slot is
with_idx, slot_count is the reported capacity. -/
def listOps (T : Type) : StoreOps (SlabList (Slot T)) T :=
  { getSlot := fun l i => l.with_idx i
    setSlot := fun l i sl => l.setIdx i sl
    slot_count := fun l => l.capacity }

/-- Slab::extend_with for the block-list slab (src/slab/mod.rs lines 309-319):
read the reported capacity into len, extend the list with slots indexed from
len on, then increment the free-list head by one. -/
def Slab.extend_with {T : Type} (s : Slab (SlabList (Slot T))) (newv : T) :
    Slab (SlabList (Slot T)) :=
  let len := s.inner.capacity
  { inner := s.inner.extend_with (fun k => Slot.new newv k) len,
    head := s.head + 1, used := s.used }

/-! ### Growable pool (src/growable.rs) -/

/-- The growth policy (src/growable.rs, enum Growth). -/
inductive Growth
  | Double
  | Half
  | Fixed (k : Nat)
deriving DecidableEq

/-- growable::Settings (src/growable.rs lines 58-61). -/
structure Settings where
  growth : Growth
deriving DecidableEq

/-- Pool construction (src/growable.rs lines 304-329, settings::Make::make):
a one-block list of cap slots when cap > 0, else an empty list; note the
settings (and in particular the growth policy) are not stored anywhere. -/
def growableMake {T : Type} (_settings : Settings) (capacity : Nat) (newv : T) :
    Slab (SlabList (Slot T)) :=
  let list :=
    if capacity > 0 then
      SlabList.from_fn_with_capacity capacity (fun i => Slot.new newv i)
    else SlabList.new
  Slab.new list

/-- Inner::grow (src/growable.rs lines 333-340): extend the slab with the
pool's factory.  The growth policy is not consulted. -/
def Inner.grow {T : Type} (s : Slab (SlabList (Slot T))) (newv : T) :
    Slab (SlabList (Slot T)) :=
  Slab.extend_with s newv

/-- Modelled from the spec (section 4.5, growth amount): the number of logical
slots each policy is supposed to add, used to compare the spec's growth
contract with the code. -/
def specGrowthAmount : Growth → Nat → Nat
  | .Double, cap => if cap = 0 then 1 else cap
  | .Half, cap => if cap = 0 then 1 else cap / 2
  | .Fixed k, _ => k

/-! ### Public checkout loops (src/fixed.rs lines 93-124, src/growable.rs
lines 115-160).  The spin loops are modelled with explicit fuel; a retry
leaves the state unchanged, so exhausted fuel stands for divergence. -/

/-- Pool::try_checkout (fixed: src/fixed.rs lines 93-112; growable:
src/growable.rs lines 115-127): loop over Slab::try_checkout, returning
Some on success, None on AtCapacity, and spinning on ShouldRetry. -/
def pubTryCheckout {S T : Type} [Clear T] (ops : StoreOps S T) :
    Nat → Slab S → Option (Nat × Slab S)
  | 0, _ => none
  | fuel + 1, s =>
    match Slab.try_checkout ops s with
    | .ok r => some r
    | .error .AtCapacity => none
    | .error .ShouldRetry => pubTryCheckout ops fuel s

/-- growable Pool::checkout (src/growable.rs lines 148-160): loop over
try_checkout2; grow on AtCapacity, spin on ShouldRetry. -/
def pubCheckoutG {T : Type} [Clear T] (newv : T) :
    Nat → Slab (SlabList (Slot T)) → Option (Nat × Slab (SlabList (Slot T)))
  | 0, _ => none
  | fuel + 1, s =>
    match Slab.try_checkout (listOps T) s with
    | .ok r => some r
    | .error .AtCapacity => pubCheckoutG newv fuel (Inner.grow s newv)
    | .error .ShouldRetry => pubCheckoutG newv fuel s

/-! ### Sequential execution helpers and concrete scenario states -/

/-- Run n successful checkouts, stopping at the first error. -/
def runOkN {S T : Type} [Clear T] (ops : StoreOps S T) : Nat → Slab S → Slab S
  | 0, s => s
  | n + 1, s =>
    match Slab.try_checkout ops s with
    | .ok (_, s') => runOkN ops n s'
    | .error _ => s

/-- Run n successive try_checkouts, collecting the returned indices; stop at
the first error. -/
def checkoutN {S T : Type} [Clear T] (ops : StoreOps S T) :
    Nat → Slab S → List Nat × Slab S
  | 0, s => ([], s)
  | n + 1, s =>
    match Slab.try_checkout ops s with
    | .ok (i, s') =>
      let r := checkoutN ops n s'
      (i :: r.1, r.2)
    | .error _ => ([], s)

/-- Run n public growable checkouts (each with spin/grow fuel 4). -/
def runPubG {T : Type} [Clear T] (newv : T) :
    Nat → Slab (SlabList (Slot T)) → Slab (SlabList (Slot T))
  | 0, s => s
  | n + 1, s =>
    match pubCheckoutG newv 4 s with
    | some (_, s') => runPubG newv n s'
    | none => s

/-- A growable pool of capacity 8 built with the Half growth policy, after its
8 slots have been checked out (free list empty, head = 8). -/
def c1state : Slab (SlabList (Slot Nat)) :=
  runOkN (listOps Nat) 8 (growableMake ⟨.Half⟩ 8 0)

/-- A block list of one block of 8 cells holding 0..7 (capacity request 8). -/
def c2list1 : SlabList Nat := SlabList.from_fn_with_capacity 8 id

/-- The same list after one extension: blocks of 8 and 16 cells, the cells
holding their flat creation index 0..23. -/
def c2list2 : SlabList Nat := c2list1.extend_with id 8

/-- A growable pool of capacity 8 (Double policy) after 16 successful public
checkouts: the first 8 drain the initial block, the 9th grows (stranding the
slot of index 8) and the aliased index range begins at head 17. -/
def c6state : Slab (SlabList (Slot Nat)) :=
  runPubG 0 16 (growableMake ⟨.Double⟩ 8 0)

/-- An empty growable pool (capacity 0): a null block list. -/
def c9empty : Slab (SlabList (Slot Nat)) := growableMake ⟨.Double⟩ 0 0

/-- The array slab after its first k slots of cap have been checked out once:
those slots are cleared and held (ref_count 1), the rest are untouched, head
and used are k. -/
def c7StateAfter {T : Type} [Clear T] (f : Nat → T) (cap k : Nat) :
    Slab (ArrayStore T) :=
  { inner := (List.range cap).map (fun j =>
      if j < k then
        { item := Clear.clear (f j), idx := j, ref_count := 1, next := j + 1 }
      else Slot.new (f j) j),
    head := k, used := k }

/-! ### Pool-level state machines
A pool state is the shared slab plus the multiset of live checkout handles.
Each live handle records the slot index it dereferences: the fixed pool's
handles hold a pointer to the slot (the array position), the growable pool's
hold the slot's idx field. -/

/-- Handle kind: Owned (exclusive) or Shared (cloneable). -/
inductive HKind
  | owned
  | shared
deriving DecidableEq

/-- A pool state: the slab and the live handles (kind, slot index). -/
structure PoolState (S : Type) where
  slab : Slab S
  handles : List (HKind × Nat)

/-- The number of live handles referring to slot i. -/
def countHandles (hs : List (HKind × Nat)) (i : Nat) : Nat :=
  hs.countP (fun h => h.2 == i)

/-- One completed operation of the fixed pool (src/fixed.rs): a successful
try_checkout (lines 93-112), Owned::downgrade (lines 161-168: Shared::new
clone_ref, then the consumed Owned drops), Shared::clone (lines 213-217),
or dropping a handle (lines 154-159 and 231-236: Slot::drop_ref). -/
inductive FStep {T : Type} [Clear T] :
    PoolState (ArrayStore T) → PoolState (ArrayStore T) → Prop
  | checkout {s : PoolState (ArrayStore T)} {i : Nat} {slab' : Slab (ArrayStore T)} :
      Slab.try_checkout (arrayOps T) s.slab = .ok (i, slab') →
      FStep s ⟨slab', (HKind.owned, i) :: s.handles⟩
  | downgrade {s : PoolState (ArrayStore T)} {i : Nat} {hs1 hs2 : List (HKind × Nat)} :
      s.handles = hs1 ++ (HKind.owned, i) :: hs2 →
      FStep s ⟨Slab.drop_ref (arrayOps T) (Slab.clone_ref (arrayOps T) s.slab i) i,
        hs1 ++ (HKind.shared, i) :: hs2⟩
  | clone {s : PoolState (ArrayStore T)} {i : Nat} :
      (HKind.shared, i) ∈ s.handles →
      FStep s ⟨Slab.clone_ref (arrayOps T) s.slab i, (HKind.shared, i) :: s.handles⟩
  | drop {s : PoolState (ArrayStore T)} {h : HKind × Nat} {hs1 hs2 : List (HKind × Nat)} :
      s.handles = hs1 ++ h :: hs2 →
      FStep s ⟨Slab.drop_ref (arrayOps T) s.slab h.2, hs1 ++ hs2⟩

/-- States of the fixed pool reachable from construction with capacity cap and
factory f (Slab::new over new_array). -/
inductive FReach {T : Type} [Clear T] (f : Nat → T) (cap : Nat) :
    PoolState (ArrayStore T) → Prop
  | init : FReach f cap ⟨Slab.new (new_array cap f), []⟩
  | step {s s' : PoolState (ArrayStore T)} :
      FReach f cap s → FStep s s' → FReach f cap s'

/-- One completed operation of the growable pool (src/growable.rs): a
successful checkout (lines 129-146, the handle records the slot's idx field),
Inner::grow (lines 333-340, invoked by checkout exactly when the slab
reports AtCapacity, lines 148-160), downgrade (lines 224-230), Shared::clone
(lines 270-274), or dropping a handle (lines 217-221 and 288-292, through
with_slot at the handle's index). -/
inductive GStep {T : Type} [Clear T] (newv : T) :
    PoolState (SlabList (Slot T)) → PoolState (SlabList (Slot T)) → Prop
  | checkout {s : PoolState (SlabList (Slot T))} {i : Nat}
      {slab' : Slab (SlabList (Slot T))} {slot : Slot T} :
      Slab.try_checkout (listOps T) s.slab = .ok (i, slab') →
      (listOps T).getSlot s.slab.inner i = some slot →
      GStep newv s ⟨slab', (HKind.owned, slot.idx) :: s.handles⟩
  | grow {s : PoolState (SlabList (Slot T))} :
      Slab.try_checkout (listOps T) s.slab = .error .AtCapacity →
      GStep newv s ⟨Inner.grow s.slab newv, s.handles⟩
  | downgrade {s : PoolState (SlabList (Slot T))} {i : Nat}
      {hs1 hs2 : List (HKind × Nat)} :
      s.handles = hs1 ++ (HKind.owned, i) :: hs2 →
      GStep newv s ⟨Slab.drop_ref (listOps T) (Slab.clone_ref (listOps T) s.slab i) i,
        hs1 ++ (HKind.shared, i) :: hs2⟩
  | clone {s : PoolState (SlabList (Slot T))} {i : Nat} :
      (HKind.shared, i) ∈ s.handles →
      GStep newv s ⟨Slab.clone_ref (listOps T) s.slab i, (HKind.shared, i) :: s.handles⟩
  | drop {s : PoolState (SlabList (Slot T))} {h : HKind × Nat}
      {hs1 hs2 : List (HKind × Nat)} :
      s.handles = hs1 ++ h :: hs2 →
      GStep newv s ⟨Slab.drop_ref (listOps T) s.slab h.2, hs1 ++ hs2⟩

/-- States of the growable pool reachable from a start state. -/
inductive GReach {T : Type} [Clear T] (newv : T) (s0 : PoolState (SlabList (Slot T))) :
    PoolState (SlabList (Slot T)) → Prop
  | init : GReach newv s0 s0
  | step {s s' : PoolState (SlabList (Slot T))} :
      GReach newv s0 s → GStep newv s s' → GReach newv s0 s'

/-! ### Invariants -/

/-- The free list of the array slab, as a Treiber chain of slot indices: v is
the current link value and L the list of free slots it reaches; the chain
terminates at the sentinel value, the store's length.  Every chain member is
an existing slot with reference count 0 whose next field continues the chain. -/
inductive FreeChain {T : Type} (store : ArrayStore T) : Nat → List Nat → Prop
  | nil : FreeChain store store.length []
  | cons {i : Nat} {slot : Slot T} {rest : List Nat} :
      store.get? i = some slot → slot.ref_count = 0 →
      FreeChain store slot.next rest → FreeChain store i (i :: rest)

/-- The inductive invariant of the fixed pool: slot idx fields match their
array position; each slot's reference count equals the number of live handles
on it; handles stay in bounds; and the free-list head reaches a duplicate-free
Treiber chain. -/
structure FInv {T : Type} (s : PoolState (ArrayStore T)) : Prop where
  idxs : ∀ i slot, s.slab.inner.get? i = some slot → slot.idx = i
  counts : ∀ i slot, s.slab.inner.get? i = some slot →
    slot.ref_count = countHandles s.handles i
  hbound : ∀ h ∈ s.handles, h.2 < s.slab.inner.length
  chain : ∃ L, FreeChain s.slab.inner s.slab.head L ∧ L.Nodup

/-- The flat (array) view of a block-list slab: its cells in block order with
the same counters.  On a single-block list every Store operation agrees with
the ArrayStore one through this view. -/
def flatSlab {T : Type} (sl : Slab (SlabList (Slot T))) : Slab (ArrayStore T) :=
  { inner := sl.inner.flatCells, head := sl.head, used := sl.used }

/-- The flat view of a growable pool state. -/
def flatPool {T : Type} (s : PoolState (SlabList (Slot T))) : PoolState (ArrayStore T) :=
  { slab := flatSlab s.slab, handles := s.handles }

/-- Free-list coverage for an array slab: a duplicate-free Treiber chain from
the head such that every zero-count slot either lies on it or has a next link
avoiding the sentinel (the store length), and every next link is bounded by
the sentinel. -/
def CovInv {T : Type} (sl : Slab (ArrayStore T)) : Prop :=
  ∃ L, FreeChain sl.inner sl.head L ∧ L.Nodup ∧
    (∀ p c, sl.inner.get? p = some c → c.ref_count = 0 →
      p ∈ L ∨ c.next ≠ sl.inner.length) ∧
    (∀ c ∈ sl.inner, c.next ≤ sl.inner.length)

/-- Phases of the growable pool reachable from construction: not yet
allocated (capacity-0 start, nothing checked out yet); a single block whose
flat view satisfies the fixed-pool invariant together with free-list
coverage; or already extended into two geometric blocks (t and 2t cells)
with every index, next link and the head bounded by the 3t actual slots —
strictly below the reported capacity 4t, so the slab never again reports
AtCapacity and no further extension ever happens. -/
def GBase {T : Type} (s : PoolState (SlabList (Slot T))) : Prop :=
  (s.slab.inner.blocks = [] ∧ s.slab.head = 0 ∧ s.handles = []) ∨
  ((∃ cells, s.slab.inner.blocks = [⟨cells⟩] ∧ cells ≠ []) ∧
    FInv (flatPool s) ∧ CovInv (flatSlab s.slab)) ∨
  (∃ t, 1 ≤ t ∧
    s.slab.inner.blocks.map (fun b => b.cells.length) = [t, 2 * t] ∧
    s.slab.head ≤ 3 * t ∧
    (∀ b ∈ s.slab.inner.blocks, ∀ c ∈ b.cells, c.next ≤ 3 * t ∧ c.idx < 3 * t))

/-- The stranding invariant for the slot of index z left behind by an
extension, sitting at offset 0 of block K (flat position z): that cell keeps
index z and count 0; no other cell carries index z; no zero-count cell links
to z and the head avoids z (so z is off the Treiber free list); and z stays
below the reported capacity and within the tail capacity.  All of this is
preserved by every later pool operation, so the slot is never acquired. -/
structure GStrand {T : Type} (z K : Nat) (sl : Slab (SlabList (Slot T))) : Prop where
  nonnil : sl.inner.blocks ≠ []
  cellsnn : ∀ b ∈ sl.inner.blocks, b.cells ≠ []
  kbound : K < sl.inner.blocks.length
  zflat : ((sl.inner.blocks.map (fun b => b.cells.length)).take K).sum = z
  zcell : ∀ bK, sl.inner.blocks.get? K = some bK →
    ∀ c0, bK.cells.get? 0 = some c0 → c0.idx = z ∧ c0.ref_count = 0
  idxz : ∀ k b, sl.inner.blocks.get? k = some b →
    ∀ j c, b.cells.get? j = some c → c.idx = z → k = K ∧ j = 0
  rcnext : ∀ b ∈ sl.inner.blocks, ∀ c ∈ b.cells, c.ref_count = 0 → c.next ≠ z
  headz : sl.head ≠ z
  zcap : z < sl.inner.capacity
  zwalk : z ≤ sl.inner.tail_capacity

/-- The pool-level stranding invariant: the slab invariant plus the fact that
no live handle refers to index z. -/
structure GStrandPool {T : Type} (z K : Nat) (s : PoolState (SlabList (Slot T))) : Prop where
  slabinv : GStrand z K s.slab
  hz : ∀ h ∈ s.handles, h.2 ≠ z

/-! ## Lemmas and theorems -/

theorem try_checkout_ok_iff {S T : Type} [Clear T] (ops : StoreOps S T) (s : Slab S)
    (i : Nat) (s' : Slab S) :
    Slab.try_checkout ops s = .ok (i, s') ↔
      i = s.head ∧ s.head < ops.slot_count s.inner ∧
      ∃ slot, ops.getSlot s.inner s.head = some slot ∧ slot.ref_count = 0 ∧
        s' = { inner := ops.setSlot s.inner s.head
                 ({ slot with ref_count := 1, item := Clear.clear slot.item }),
               head := slot.next, used := s.used + 1 } := by
  simp only [Slab.try_checkout]
  split
  · rename_i hge
    constructor
    · intro h; exact absurd h (by simp)
    · rintro ⟨rfl, hlt, -⟩; omega
  · rename_i hge
    split
    · rename_i hnone
      constructor
      · intro h; exact absurd h (by simp)
      · rintro ⟨rfl, hlt, slot, hsome, -⟩
        rw [hsome] at hnone; exact absurd hnone (by simp)
    · rename_i slot hsome
      split
      · rename_i hrc
        rw [if_pos trivial]
        constructor
        · intro h
          rw [Except.ok.injEq, Prod.mk.injEq] at h
          refine ⟨h.1.symm, by omega, slot, hsome, hrc, h.2.symm⟩
        · rintro ⟨rfl, hlt, slot2, hsome2, hrc2, hs'⟩
          rw [hsome] at hsome2
          obtain rfl : slot2 = slot := by injection hsome2 with h; exact h.symm
          rw [hs']
      · rename_i hrc
        constructor
        · intro h; exact absurd h (by simp)
        · rintro ⟨rfl, hlt, slot2, hsome2, hrc2, -⟩
          rw [hsome] at hsome2
          obtain rfl : slot2 = slot := by injection hsome2 with h; exact h.symm
          exact absurd hrc2 hrc

theorem try_checkout_atCapacity {S T : Type} [Clear T] (ops : StoreOps S T)
    (s : Slab S) (hge : s.head ≥ ops.slot_count s.inner) :
    Slab.try_checkout ops s = .error .AtCapacity := by
  simp only [Slab.try_checkout]
  rw [if_pos hge]

/-- C3 auxiliary: the array store reads back the slot it wrote. -/
theorem arrayOps_get_set_self {T : Type} (store : ArrayStore T) (i : Nat)
    (sl sl' : Slot T) (h : store.get? i = some sl) :
    ((arrayOps T).setSlot store i sl').get? i = some sl' := by
  have hlt : i < store.length := (List.get?_eq_some.mp h).1
  exact List.get?_set_eq_of_lt sl' hlt

/-- C1: the slot-producing claim theorem for the growth policy, evaluating the
code at the failing input.  A growable pool built with the Half policy and
capacity 8 is drained (the slab reports AtCapacity); Inner::grow then raises
the reported capacity from 8 to 32, appending a 16-slot block, while the
configured policy asked for 8 / 2 = 4 slots.  Inner::grow never consults the
policy (growableMake discards the settings), so the added amount disagrees
with every variant of the claim. -/
theorem c1_growth_policy_ignored :
    Slab.try_checkout (listOps Nat) c1state = .error .AtCapacity ∧
    c1state.inner.capacity = 8 ∧
    (Inner.grow c1state 0).inner.capacity = 32 ∧
    specGrowthAmount Growth.Half 8 = 4 ∧
    (Inner.grow c1state 0).inner.capacity ≠
      c1state.inner.capacity + specGrowthAmount Growth.Half 8 := by
  refine ⟨rfl, rfl, rfl, rfl, by decide⟩

/-- C2 counterexample: after one extension the list has blocks of 8 and 16
cells; the appended block is twice the tail, but the tail block (16 cells)
does not hold half of the 24 slots that actually exist across all blocks
(the reported capacity 32 overcounts them). -/
theorem c2_tail_not_half_of_total :
    c2list2.blocks.map (fun b => b.cells.length) = [8, 16] ∧
    c2list2.tail_capacity = 16 ∧
    c2list2.slotTotal = 24 ∧
    c2list2.capacity = 32 ∧
    c2list2.tail_capacity * 2 ≠ c2list2.slotTotal := by
  refine ⟨rfl, rfl, rfl, rfl, by decide⟩

/-- with_idx factored through resolve and coordinate lookup. -/
theorem with_idx_eq_lookupCoord {A : Type} (l : SlabList A) (i : Nat) :
    l.with_idx i = lookupCoord l.blocks (l.resolve i) := by
  unfold SlabList.with_idx lookupCoord
  cases l.resolve i with
  | none => rfl
  | some p => cases p; rfl

/-- Replacing one block by an equally long one keeps the length profile. -/
theorem map_len_set {A : Type} (blocks : List (Block A)) (k : Nat) (b b' : Block A)
    (hget : blocks.get? k = some b) (hlen : b'.cells.length = b.cells.length) :
    (blocks.set k b').map (fun x => x.cells.length) =
      blocks.map (fun x => x.cells.length) := by
  apply List.ext_get?
  intro n
  rw [List.get?_map, List.get?_map]
  by_cases hnk : k = n
  · subst hnk
    rw [List.get?_set_eq_of_lt _ (List.get?_eq_some.mp hget).1, hget]
    simp [hlen]
  · rw [List.get?_set_ne _ _ hnk]

/-- setIdx keeps the length profile of the block list. -/
theorem setIdx_lens {A : Type} (l : SlabList A) (i : Nat) (a : A) :
    (l.setIdx i a).blocks.map (fun b => b.cells.length) =
      l.blocks.map (fun b => b.cells.length) := by
  unfold SlabList.setIdx
  cases hres : l.resolve i with
  | none => rfl
  | some p =>
    obtain ⟨k, o⟩ := p
    dsimp only
    cases hget : l.blocks.get? k with
    | none => rfl
    | some b => exact map_len_set l.blocks k b _ hget (List.length_set _ _ _)

/-- tail_capacity only depends on the length profile. -/
theorem tail_capacity_congr {A B : Type} (l : SlabList A) (l' : SlabList B)
    (h : l.blocks.map (fun b => b.cells.length) =
         l'.blocks.map (fun b => b.cells.length)) :
    l.tail_capacity = l'.tail_capacity := by
  unfold SlabList.tail_capacity
  have hlast := congrArg List.getLast? h
  rw [List.getLast?_map, List.getLast?_map] at hlast
  cases hl : l.blocks.getLast? <;> cases hl' : l'.blocks.getLast? <;>
    rw [hl, hl'] at hlast <;> simp_all

/-- capacity only depends on the length profile. -/
theorem capacity_congr {A B : Type} (l : SlabList A) (l' : SlabList B)
    (h : l.blocks.map (fun b => b.cells.length) =
         l'.blocks.map (fun b => b.cells.length)) :
    l.capacity = l'.capacity := by
  unfold SlabList.capacity
  have hhd := congrArg List.head? h
  rw [List.head?_map, List.head?_map] at hhd
  have htc := tail_capacity_congr l l' h
  cases hl : l.blocks.head? <;> cases hl' : l'.blocks.head? <;>
    rw [hl, hl'] at hhd <;> simp_all

/-- resolve only depends on the length profile. -/
theorem resolve_congr {A B : Type} (l : SlabList A) (l' : SlabList B)
    (h : l.blocks.map (fun b => b.cells.length) =
         l'.blocks.map (fun b => b.cells.length)) (i : Nat) :
    l.resolve i = l'.resolve i := by
  unfold SlabList.resolve
  rw [capacity_congr l l' h, tail_capacity_congr l l' h, h]
  have hlast := congrArg List.getLast? h
  rw [List.getLast?_map, List.getLast?_map] at hlast
  have hlen : l.blocks.length = l'.blocks.length := by
    have := congrArg List.length h; simpa using this
  by_cases h1 : i > l'.capacity
  · rw [if_pos h1, if_pos h1]
  · rw [if_neg h1, if_neg h1]
    by_cases h2 : i > l'.tail_capacity
    · rw [if_pos h2, if_pos h2]
      cases hl : l.blocks.getLast? <;> cases hl' : l'.blocks.getLast? <;>
        rw [hl, hl'] at hlast <;> simp_all
    · rw [if_neg h2, if_neg h2]

theorem setIdx_resolve {A : Type} (l : SlabList A) (i j : Nat) (a : A) :
    (l.setIdx i a).resolve j = l.resolve j :=
  resolve_congr _ _ (setIdx_lens l i a) j

theorem setIdx_capacity {A : Type} (l : SlabList A) (i : Nat) (a : A) :
    (l.setIdx i a).capacity = l.capacity :=
  capacity_congr _ _ (setIdx_lens l i a)

theorem setIdx_tail_capacity {A : Type} (l : SlabList A) (i : Nat) (a : A) :
    (l.setIdx i a).tail_capacity = l.tail_capacity :=
  tail_capacity_congr _ _ (setIdx_lens l i a)

/-- Cell contents after setIdx: each addressed cell is either the written value
at the resolved coordinate or the original cell of the input list. -/
theorem setIdx_get_cases {A : Type} (l : SlabList A) (i : Nat) (a : A)
    (k o : Nat) (hres : l.resolve i = some (k, o)) (k' j : Nat) (b' : Block A)
    (c : A) (hb : (l.setIdx i a).blocks.get? k' = some b')
    (hc : b'.cells.get? j = some c) :
    (k' = k ∧ j = o ∧ c = a) ∨
      ∃ b, l.blocks.get? k' = some b ∧ b.cells.get? j = some c := by
  unfold SlabList.setIdx at hb
  rw [hres] at hb
  dsimp only at hb
  revert hb
  cases hget : l.blocks.get? k with
  | none => intro hb; exact Or.inr ⟨b', hb, hc⟩
  | some b =>
    intro hb
    by_cases hkk : k = k'
    · subst hkk
      rw [List.get?_set_eq_of_lt _ (List.get?_eq_some.mp hget).1] at hb
      obtain rfl : (⟨b.cells.set o a⟩ : Block A) = b' := by injection hb
      by_cases hjo : o = j
      · subst hjo
        have ho : o < b.cells.length := by
          by_contra hno
          rw [List.set_eq_of_length_le (by omega)] at hc
          · exact absurd (List.get?_eq_some.mp hc).1 hno
        rw [List.get?_set_eq_of_lt _ ho] at hc
        exact Or.inl ⟨rfl, rfl, by injection hc with h; exact h.symm⟩
      · rw [List.get?_set_ne _ _ hjo] at hc
        exact Or.inr ⟨b, hget, hc⟩
    · rw [List.get?_set_ne _ _ hkk] at hb
      exact Or.inr ⟨b', hb, hc⟩

/-- Every cell of a setIdx result is an old cell or the written value. -/
theorem setIdx_mem_cases {A : Type} (l : SlabList A) (i : Nat) (a : A)
    (b' : Block A) (c : A) (hb : b' ∈ (l.setIdx i a).blocks) (hc : c ∈ b'.cells) :
    (∃ b ∈ l.blocks, c ∈ b.cells) ∨ c = a := by
  unfold SlabList.setIdx at hb
  revert hb
  cases hres : l.resolve i with
  | none => intro hb; exact Or.inl ⟨b', hb, hc⟩
  | some p =>
    obtain ⟨k, o⟩ := p
    dsimp only
    cases hget : l.blocks.get? k with
    | none => intro hb; exact Or.inl ⟨b', hb, hc⟩
    | some b =>
      intro hb
      rcases List.mem_or_eq_of_mem_set hb with hmem | rfl
      · exact Or.inl ⟨b', hmem, hc⟩
      · rcases List.mem_or_eq_of_mem_set hc with hmem | rfl
        · exact Or.inl ⟨b, List.get?_mem hget, hmem⟩
        · exact Or.inr rfl

/-- The head-to-tail walk is exactly flat indexing. -/
theorem lookupCoord_walkLens {A : Type} (blocks : List (Block A)) (i : Nat) :
    lookupCoord blocks (walkLens (blocks.map (fun b => b.cells.length)) i) =
      ((blocks.map (fun b => b.cells)).flatten).get? i := by
  induction blocks generalizing i with
  | nil => simp [walkLens, lookupCoord]
  | cons b rest ih =>
    simp only [List.map_cons, walkLens, List.flatten_cons]
    by_cases hi : i < b.cells.length
    · rw [if_pos hi, List.get?_append hi]
      simp [lookupCoord]
    · rw [if_neg hi, List.get?_append_right (by omega)]
      rw [← ih (i - b.cells.length)]
      cases hw : walkLens (rest.map (fun b => b.cells.length)) (i - b.cells.length) with
      | none => simp [lookupCoord]
      | some p =>
        cases p with
        | mk k o => simp [lookupCoord]

/-- C8 counterexample: in the two-block list (8 and 16 cells, cells numbered by
creation order), index 17 addresses an existing slot (there are 24, and the
17th holds 17) yet with_idx returns the aliased cell 9; index 24 addresses no
existing slot yet with_idx returns cell 16. -/
theorem c8_with_idx_aliases :
    c2list2.slotTotal = 24 ∧
    c2list2.flatCells.get? 17 = some 17 ∧
    c2list2.with_idx 17 = some 9 ∧
    c2list2.with_idx 17 ≠ c2list2.flatCells.get? 17 ∧
    c2list2.with_idx 24 = some 16 := by
  refine ⟨rfl, rfl, rfl, by decide, rfl⟩

/-- C2 amended: appending to a nonempty block list (whose head block is
nonempty and no larger than the tail) adds one block of exactly twice the
tail capacity; afterwards the reported List::capacity equals twice the new
tail capacity, while the actual slot count grew by the new block only, so
the tail holds half of the reported capacity, not half of the slots. -/
theorem tail_capacity_append_singleton {A : Type} (bs : List (Block A)) (nb : Block A) :
    (⟨bs ++ [nb]⟩ : SlabList A).tail_capacity = nb.cells.length := by
  unfold SlabList.tail_capacity
  rw [List.getLast?_concat]

theorem c2_amended {A : Type} (l : SlabList A) (g : Nat → A) (start : Nat)
    (hne : l.blocks ≠ [])
    (hhead : ∀ b0, l.blocks.head? = some b0 →
      0 < b0.cells.length ∧ b0.cells.length ≤ l.tail_capacity) :
    (l.extend_with g start).tail_capacity = 2 * l.tail_capacity ∧
    (l.extend_with g start).capacity = 2 * (l.extend_with g start).tail_capacity ∧
    (l.extend_with g start).slotTotal = l.slotTotal + 2 * l.tail_capacity := by
  obtain ⟨b0, hb0⟩ : ∃ b0, l.blocks.head? = some b0 := by
    cases h : l.blocks with
    | nil => exact absurd h hne
    | cons x xs => exact ⟨x, rfl⟩
  obtain ⟨h0pos, h0le⟩ := hhead b0 hb0
  have hext : l.extend_with g start =
      { blocks := l.blocks ++
          [{ cells := (List.range (l.tail_capacity * 2)).map (fun j => g (start + j)) }] } := by
    unfold SlabList.extend_with
    cases h : l.blocks with
    | nil => exact absurd h hne
    | cons x xs => rfl
  rw [hext]
  have hlenb : ((List.range (l.tail_capacity * 2)).map
      (fun j => g (start + j))).length = l.tail_capacity * 2 := by
    rw [List.length_map, List.length_range]
  have htail : ({ blocks := l.blocks ++
      [{ cells := (List.range (l.tail_capacity * 2)).map (fun j => g (start + j)) }] } :
        SlabList A).tail_capacity = 2 * l.tail_capacity := by
    rw [tail_capacity_append_singleton]
    rw [hlenb]; ring
  have hheadapp : (l.blocks ++
      [({ cells := (List.range (l.tail_capacity * 2)).map (fun j => g (start + j)) } :
        Block A)]).head? = some b0 := by
    cases h : l.blocks with
    | nil => exact absurd h hne
    | cons x xs =>
      rw [h] at hb0
      simpa using hb0
  refine ⟨htail, ?_, ?_⟩
  · unfold SlabList.capacity
    rw [hheadapp]
    dsimp only
    rw [htail]
    rw [if_neg (by omega)]
    ring
  · unfold SlabList.slotTotal
    rw [List.map_append, Nat.sum_append]
    simp only [List.map_cons, List.map_nil, List.sum_cons, List.sum_nil]
    rw [hlenb]
    omega

/-- C2 amended witness: the concrete one-block list of 8 cells satisfies the
hypotheses, and the extension yields tail 16, reported capacity 32 and 24
actual slots. -/
theorem c2_amended_witness :
    (c2list1.blocks ≠ [] ∧
      (∀ b0, c2list1.blocks.head? = some b0 →
        0 < b0.cells.length ∧ b0.cells.length ≤ c2list1.tail_capacity)) ∧
    (c2list2.tail_capacity = 2 * c2list1.tail_capacity ∧
      c2list2.capacity = 2 * c2list2.tail_capacity ∧
      c2list2.slotTotal = c2list1.slotTotal + 2 * c2list1.tail_capacity) := by
  constructor
  · constructor
    · decide
    · intro b0 h
      rw [show c2list1.blocks.head? =
            some ⟨(List.range 8).map id⟩ from rfl] at h
      obtain rfl : (⟨(List.range 8).map id⟩ : Block Nat) = b0 := by injection h
      decide
  · exact c2_amended c2list1 id 8 (by decide)
      (by
        intro b0 h
        rw [show c2list1.blocks.head? =
              some ⟨(List.range 8).map id⟩ from rfl] at h
        obtain rfl : (⟨(List.range 8).map id⟩ : Block Nat) = b0 := by injection h
        decide)

/-- The tail capacity never exceeds the reported capacity. -/
theorem tail_capacity_le_capacity {A : Type} (l : SlabList A) :
    l.tail_capacity ≤ l.capacity := by
  unfold SlabList.capacity
  cases hh : l.blocks.head? with
  | none =>
    have hnil : l.blocks = [] := by
      cases hb : l.blocks with
      | nil => rfl
      | cons x xs => rw [hb] at hh; exact absurd hh (by simp)
    have : l.tail_capacity = 0 := by
      unfold SlabList.tail_capacity
      rw [hnil]; rfl
    omega
  | some h =>
    dsimp only
    split <;> omega

/-- C8 amended: slot lookup is exactly bounds-checked for ArrayStore; for the
block list, with_idx agrees with flat indexing for every index up to the tail
capacity, while indices above it are taken in the tail block at offset
i - tail_capacity (up to the reported capacity), which is where aliasing
arises once earlier blocks hold fewer than tail_capacity slots. -/
theorem c8_amended :
    (∀ (T : Type) (store : ArrayStore T) (i : Nat),
      (arrayOps T).getSlot store i = store.get? i ∧
      (((arrayOps T).getSlot store i).isSome ↔ i < store.length)) ∧
    (∀ (A : Type) (l : SlabList A) (i : Nat), i ≤ l.tail_capacity →
      l.with_idx i = l.flatCells.get? i) ∧
    (∀ (A : Type) (l : SlabList A) (i : Nat), l.tail_capacity < i →
      l.with_idx i =
        if i ≤ l.capacity then
          match l.blocks.getLast? with
          | none => none
          | some tb => tb.cells.get? (i - l.tail_capacity)
        else none) := by
  refine ⟨?_, ?_, ?_⟩
  · intro T store i
    refine ⟨rfl, ?_⟩
    show (store.get? i).isSome ↔ i < store.length
    constructor
    · intro h
      obtain ⟨a, ha⟩ := Option.isSome_iff_exists.mp h
      exact (List.get?_eq_some.mp ha).1
    · intro h
      rw [List.get?_eq_get h]
      exact rfl
  · intro A l i hle
    rw [with_idx_eq_lookupCoord]
    unfold SlabList.resolve
    rw [if_neg (by have := tail_capacity_le_capacity l; omega)]
    dsimp only
    rw [if_neg (by omega)]
    exact lookupCoord_walkLens l.blocks i
  · intro A l i hgt
    rw [with_idx_eq_lookupCoord]
    unfold SlabList.resolve
    by_cases hcap : i > l.capacity
    · rw [if_pos hcap, if_neg (show ¬ i ≤ l.capacity by omega)]
      rfl
    · rw [if_neg hcap]
      dsimp only
      rw [if_pos hgt, if_pos (show i ≤ l.capacity by omega)]
      cases hl : l.blocks.getLast? with
      | none => rfl
      | some tb =>
        dsimp only
        by_cases hoff : i - l.tail_capacity < tb.cells.length
        · rw [if_pos hoff]
          unfold lookupCoord
          dsimp only
          have hlast : l.blocks.get? (l.blocks.length - 1) = some tb := by
            rw [← List.getLast?_eq_get?]
            exact hl
          rw [hlast]
        · rw [if_neg hoff]
          rw [List.get?_eq_none.mpr (by omega)]
          rfl

/-- C8 amended witness: instantiating all three parts on concrete stores. -/
theorem c8_amended_witness :
    ((arrayOps Nat).getSlot (new_array 3 id) 1 = (new_array 3 id).get? 1 ∧
      (((arrayOps Nat).getSlot (new_array 3 id) 1).isSome ↔ 1 < (new_array 3 id).length)) ∧
    ((16 : Nat) ≤ c2list2.tail_capacity ∧ c2list2.with_idx 16 = c2list2.flatCells.get? 16) ∧
    (c2list2.tail_capacity < 17 ∧ c2list2.with_idx 17 =
      if 17 ≤ c2list2.capacity then
        match c2list2.blocks.getLast? with
        | none => none
        | some tb => tb.cells.get? (17 - c2list2.tail_capacity)
      else none) :=
  ⟨(c8_amended.1 Nat (new_array 3 id) 1),
   ⟨by decide, c8_amended.2.1 Nat c2list2 16 (by decide)⟩,
   ⟨by decide, c8_amended.2.2 Nat c2list2 17 (by decide)⟩⟩

/-- The block-list store reads back the slot it wrote. -/
theorem listOps_get_set_self {T : Type} (l : SlabList (Slot T)) (i : Nat)
    (sl sl' : Slot T) (h : l.with_idx i = some sl) :
    (l.setIdx i sl').with_idx i = some sl' := by
  rw [with_idx_eq_lookupCoord, setIdx_resolve]
  have h' : lookupCoord l.blocks (l.resolve i) = some sl := by
    rw [← with_idx_eq_lookupCoord]; exact h
  cases hres : l.resolve i with
  | none => rw [hres] at h'; exact absurd h' (by simp [lookupCoord])
  | some p =>
    obtain ⟨k, o⟩ := p
    rw [hres] at h'
    unfold lookupCoord at h' ⊢
    dsimp only at h' ⊢
    cases hget : l.blocks.get? k with
    | none => rw [hget] at h'; exact absurd h' (by simp)
    | some b =>
      rw [hget] at h'
      have hset : (l.setIdx i sl').blocks = l.blocks.set k ⟨b.cells.set o sl'⟩ := by
        unfold SlabList.setIdx
        rw [hres]
        dsimp only
        rw [hget]
      rw [hset]
      rw [List.get?_set_eq_of_lt _ (List.get?_eq_some.mp hget).1]
      dsimp only
      rw [List.get?_set_eq_of_lt _ (List.get?_eq_some.mp h').1]

/-- C3: freshness on checkout, for both storage variants.  Whenever the slab
checkout succeeds on slot i, the slot observed afterwards through the handle
holds the user's clear() of the previous value (with ref_count 1); the clear
happens between winning the slot and returning it. -/
theorem c3_checkout_clears :
    (∀ (T : Type) [inst : Clear T] (s : Slab (ArrayStore T)) (i : Nat)
      (s' : Slab (ArrayStore T)) (slot0 : Slot T),
      s.inner.get? i = some slot0 →
      Slab.try_checkout (arrayOps T) s = .ok (i, s') →
      s'.inner.get? i =
        some { slot0 with ref_count := 1, item := Clear.clear slot0.item }) ∧
    (∀ (T : Type) [inst : Clear T] (s : Slab (SlabList (Slot T))) (i : Nat)
      (s' : Slab (SlabList (Slot T))) (slot0 : Slot T),
      s.inner.with_idx i = some slot0 →
      Slab.try_checkout (listOps T) s = .ok (i, s') →
      s'.inner.with_idx i =
        some { slot0 with ref_count := 1, item := Clear.clear slot0.item }) := by
  constructor
  · intro T inst s i s' slot0 hget hok
    obtain ⟨rfl, hlt, slot, hsome, hrc, rfl⟩ := (try_checkout_ok_iff _ s _ _).mp hok
    obtain rfl : slot0 = slot := by
      rw [show (arrayOps T).getSlot s.inner s.head = s.inner.get? s.head from rfl] at hsome
      rw [hget] at hsome
      injection hsome
    exact arrayOps_get_set_self s.inner s.head slot0 _ hget
  · intro T inst s i s' slot0 hget hok
    obtain ⟨rfl, hlt, slot, hsome, hrc, rfl⟩ := (try_checkout_ok_iff _ s _ _).mp hok
    obtain rfl : slot0 = slot := by
      rw [show (listOps T).getSlot s.inner s.head = s.inner.with_idx s.head from rfl] at hsome
      rw [hget] at hsome
      injection hsome
    exact listOps_get_set_self s.inner s.head slot0 _ hget

/-- C3 witness: one-slot pools over Nat (clear maps to 0); the checkout of
slot 0 succeeds on both variants and the observed slot is the cleared one. -/
theorem c3_witness :
    ((Slab.new (new_array 1 (fun _ => (5 : Nat)))).inner.get? 0 = some (Slot.new 5 0) ∧
      ({ inner := [{ item := 0, idx := 0, ref_count := 1, next := 1 }], head := 1,
          used := 1 } : Slab (ArrayStore Nat)).inner.get? 0 =
        some { Slot.new (5 : Nat) 0 with ref_count := 1, item := Clear.clear (Slot.new (5 : Nat) 0).item }) ∧
    ((growableMake ⟨.Double⟩ 1 (5 : Nat)).inner.with_idx 0 = some (Slot.new 5 0) ∧
      ({ inner := ⟨[⟨[{ item := 0, idx := 0, ref_count := 1, next := 1 }]⟩]⟩, head := 1,
          used := 1 } : Slab (SlabList (Slot Nat))).inner.with_idx 0 =
        some { Slot.new (5 : Nat) 0 with ref_count := 1, item := Clear.clear (Slot.new (5 : Nat) 0).item }) :=
  ⟨⟨rfl, c3_checkout_clears.1 Nat (Slab.new (new_array 1 (fun _ => 5))) 0 _
      (Slot.new 5 0) rfl rfl⟩,
   ⟨rfl, c3_checkout_clears.2 Nat (growableMake ⟨.Double⟩ 1 5) 0 _
      (Slot.new 5 0) rfl rfl⟩⟩

/-- C10: detach replaces only the pooled value.  For both storage variants,
detach_with on a held slot (ref_count 1) returns the old item, and the state
afterwards has the same head and used counter, with the slot still holding
ref_count 1, the same index and next field, and the fresh value. -/
theorem c10_detach_frame :
    (∀ (T : Type) (s : Slab (ArrayStore T)) (i : Nat) (slot : Slot T) (v : T),
      s.inner.get? i = some slot → slot.ref_count = 1 →
      ∃ s', Slab.detach_with (arrayOps T) s i v = some (slot.item, s') ∧
        s'.head = s.head ∧ s'.used = s.used ∧
        s'.inner.get? i = some { slot with item := v }) ∧
    (∀ (T : Type) (s : Slab (SlabList (Slot T))) (i : Nat) (slot : Slot T) (v : T),
      s.inner.with_idx i = some slot → slot.ref_count = 1 →
      ∃ s', Slab.detach_with (listOps T) s i v = some (slot.item, s') ∧
        s'.head = s.head ∧ s'.used = s.used ∧
        s'.inner.with_idx i = some { slot with item := v }) := by
  constructor
  · intro T s i slot v hget hrc
    refine ⟨{ s with inner := (arrayOps T).setSlot s.inner i ({ slot with item := v }) },
      ?_, rfl, rfl, ?_⟩
    · unfold Slab.detach_with
      rw [show (arrayOps T).getSlot s.inner i = s.inner.get? i from rfl, hget]
    · exact arrayOps_get_set_self s.inner i slot _ hget
  · intro T s i slot v hget hrc
    refine ⟨{ s with inner := (listOps T).setSlot s.inner i ({ slot with item := v }) },
      ?_, rfl, rfl, ?_⟩
    · unfold Slab.detach_with
      rw [show (listOps T).getSlot s.inner i = s.inner.with_idx i from rfl, hget]
    · exact listOps_get_set_self s.inner i slot _ hget

/-- C10 witness: detaching value 7 out of held slot 0 on both variants. -/
theorem c10_witness :
    (({ inner := [{ item := (7 : Nat), idx := 0, ref_count := 1, next := 3 }],
        head := 1, used := 1 } : Slab (ArrayStore Nat)).inner.get? 0 =
          some { item := 7, idx := 0, ref_count := 1, next := 3 } ∧
      ∃ s', Slab.detach_with (arrayOps Nat)
          { inner := [{ item := 7, idx := 0, ref_count := 1, next := 3 }],
            head := 1, used := 1 } 0 42 = some (7, s') ∧
        s'.head = 1 ∧ s'.used = 1 ∧
        s'.inner.get? 0 = some { item := 42, idx := 0, ref_count := 1, next := 3 }) ∧
    (({ inner := ⟨[⟨[{ item := (7 : Nat), idx := 0, ref_count := 1, next := 3 }]⟩]⟩,
        head := 1, used := 1 } : Slab (SlabList (Slot Nat))).inner.with_idx 0 =
          some { item := 7, idx := 0, ref_count := 1, next := 3 } ∧
      ∃ s', Slab.detach_with (listOps Nat)
          { inner := ⟨[⟨[{ item := 7, idx := 0, ref_count := 1, next := 3 }]⟩]⟩,
            head := 1, used := 1 } 0 42 = some (7, s') ∧
        s'.head = 1 ∧ s'.used = 1 ∧
        s'.inner.with_idx 0 = some { item := 42, idx := 0, ref_count := 1, next := 3 }) :=
  ⟨⟨rfl, c10_detach_frame.1 Nat _ 0 { item := 7, idx := 0, ref_count := 1, next := 3 }
      42 rfl rfl⟩,
   ⟨rfl, c10_detach_frame.2 Nat _ 0 { item := 7, idx := 0, ref_count := 1, next := 3 }
      42 rfl rfl⟩⟩

/-- C7 step: from the state with k of cap slots checked out, the next
try_checkout returns slot k and advances to k + 1. -/
theorem c7_step {T : Type} [Clear T] (f : Nat → T) (cap k : Nat) (hk : k < cap) :
    Slab.try_checkout (arrayOps T) (c7StateAfter f cap k) =
      .ok (k, c7StateAfter f cap (k + 1)) := by
  apply (try_checkout_ok_iff (arrayOps T) _ k _).mpr
  have hcount : (arrayOps T).slot_count (c7StateAfter f cap k).inner = cap := by
    show ((List.range cap).map _).length = cap
    rw [List.length_map, List.length_range]
  have hget : (arrayOps T).getSlot (c7StateAfter f cap k).inner k =
      some (Slot.new (f k) k) := by
    show ((List.range cap).map _).get? k = _
    rw [List.get?_map, List.get?_range hk]
    simp only [Option.map_some']
    rw [if_neg (Nat.lt_irrefl k)]
  refine ⟨rfl, by rw [hcount]; exact hk, Slot.new (f k) k, hget, rfl, ?_⟩
  show c7StateAfter f cap (k + 1) = _
  unfold c7StateAfter
  refine congrArg (fun inner => ({ inner := inner, head := k + 1, used := k + 1 } :
    Slab (ArrayStore T))) ?_
  apply List.ext_get?
  intro n
  show ((List.range cap).map _).get? n = (((List.range cap).map _).set k _).get? n
  by_cases hnk : k = n
  · subst hnk
    rw [List.get?_set_eq_of_lt _ (by rw [List.length_map, List.length_range]; exact hk)]
    rw [List.get?_map, List.get?_range hk]
    simp only [Option.map_some']
    rw [if_pos (Nat.lt_succ_self k)]
    rfl
  · rw [List.get?_set_ne _ _ hnk, List.get?_map, List.get?_map]
    by_cases hn : n < cap
    · rw [List.get?_range hn]
      simp only [Option.map_some']
      by_cases h2 : n < k
      · rw [if_pos h2, if_pos (by omega)]
      · rw [if_neg h2, if_neg (by omega)]
    · rw [List.get?_eq_none.mpr (by rw [List.length_range]; omega)]
      simp

/-- C7 loop: the remaining m checkouts from state k return k, k+1, ... in
order and end in the full state. -/
theorem c7_loop {T : Type} [Clear T] (f : Nat → T) (cap : Nat) :
    ∀ m k, k + m = cap →
      checkoutN (arrayOps T) m (c7StateAfter f cap k) =
        (List.range' k m, c7StateAfter f cap cap) := by
  intro m
  induction m with
  | zero =>
    intro k hk
    obtain rfl : k = cap := by omega
    rfl
  | succ m ih =>
    intro k hk
    show checkoutN (arrayOps T) (m + 1) (c7StateAfter f cap k) = _
    unfold checkoutN
    rw [c7_step f cap k (by omega)]
    dsimp only
    rw [ih (k + 1) (by omega)]
    rw [List.range'_succ]

/-- C7 base: the freshly built array slab is the zero state. -/
theorem c7_init {T : Type} [Clear T] (f : Nat → T) (cap : Nat) :
    (Slab.new (new_array cap f) : Slab (ArrayStore T)) = c7StateAfter f cap 0 := by
  unfold Slab.new new_array c7StateAfter
  refine congrArg (fun inner => ({ inner := inner, head := 0, used := 0 } :
    Slab (ArrayStore T))) ?_
  apply List.map_congr_left
  intro j _
  rw [if_neg (Nat.not_lt_zero j)]

/-- C7: the array slab starts with head 0, used 0 and slot k holding
ref_count 0 and next = k + 1; cap successive checkouts return 0, ..., cap-1
in order, ending with head = cap, where try_checkout reports AtCapacity. -/
theorem c7_initial_state_and_sequence :
    ∀ (T : Type) [inst : Clear T] (f : Nat → T) (cap : Nat),
      (Slab.new (new_array cap f) : Slab (ArrayStore T)).head = 0 ∧
      (Slab.new (new_array cap f) : Slab (ArrayStore T)).used = 0 ∧
      (∀ k slot, (Slab.new (new_array cap f) : Slab (ArrayStore T)).inner.get? k =
          some slot → slot.idx = k ∧ slot.ref_count = 0 ∧ slot.next = k + 1) ∧
      checkoutN (arrayOps T) cap (Slab.new (new_array cap f)) =
        (List.range cap, c7StateAfter f cap cap) ∧
      (c7StateAfter f cap cap).head = cap ∧
      Slab.try_checkout (arrayOps T) (c7StateAfter f cap cap) =
        .error .AtCapacity := by
  intro T inst f cap
  refine ⟨rfl, rfl, ?_, ?_, rfl, ?_⟩
  · intro k slot hk
    have hthis : ((List.range cap).map (fun i => Slot.new (f i) i)).get? k =
        some slot := hk
    rw [List.get?_map] at hthis
    by_cases hlt : k < cap
    · rw [List.get?_range hlt] at hthis
      simp only [Option.map_some'] at hthis
      obtain rfl : Slot.new (f k) k = slot := by injection hthis
      exact ⟨rfl, rfl, rfl⟩
    · rw [List.get?_eq_none.mpr (by rw [List.length_range]; omega)] at hthis
      exact absurd hthis (by simp)
  · rw [c7_init f cap, c7_loop f cap cap 0 (by omega), List.range_eq_range']
  · apply try_checkout_atCapacity
    show ((List.range cap).map _).length ≤ cap
    rw [List.length_map, List.length_range]

/-- C7 witness: capacity 2 with factory j + 100; slot 1 of the fresh slab has
index 1, count 0 and next 2; the two checkouts return 0 then 1 and the slab
then reports AtCapacity. -/
theorem c7_witness :
    ((Slot.new (101 : Nat) 1).idx = 1 ∧ (Slot.new (101 : Nat) 1).ref_count = 0 ∧
      (Slot.new (101 : Nat) 1).next = 2) ∧
    checkoutN (arrayOps Nat) 2 (Slab.new (new_array 2 (fun j => j + 100))) =
      (List.range 2, c7StateAfter (fun j => j + 100) 2 2) ∧
    Slab.try_checkout (arrayOps Nat) (c7StateAfter (fun j => j + 100) 2 2) =
      .error .AtCapacity :=
  ⟨(c7_initial_state_and_sequence Nat (fun j => j + 100) 2).2.2.1 1
      (Slot.new 101 1) rfl,
   (c7_initial_state_and_sequence Nat (fun j => j + 100) 2).2.2.2.1,
   (c7_initial_state_and_sequence Nat (fun j => j + 100) 2).2.2.2.2.2⟩

/-! ### Free-chain and handle-count lemmas for the fixed pool -/

theorem freeChain_mem_rc {T : Type} {store : ArrayStore T} {v : Nat} {L : List Nat}
    (h : FreeChain store v L) :
    ∀ i ∈ L, ∃ slot, store.get? i = some slot ∧ slot.ref_count = 0 := by
  induction h with
  | nil => intro i hi; cases hi
  | cons hget hrc hch ih =>
    intro i hi
    rcases List.mem_cons.mp hi with rfl | hi
    · exact ⟨_, hget, hrc⟩
    · exact ih i hi

theorem freeChain_congr {T : Type} {store store' : ArrayStore T}
    (hlen : store'.length = store.length) :
    ∀ {v : Nat} {L : List Nat}, FreeChain store v L →
      (∀ j ∈ L, store'.get? j = store.get? j) → FreeChain store' v L := by
  intro v L h
  induction h with
  | nil =>
    intro _
    have : store.length = store'.length := hlen.symm
    rw [this]
    exact FreeChain.nil
  | cons hget hrc hch ih =>
    intro hagree
    exact FreeChain.cons
      (by rw [hagree _ (List.mem_cons_self _ _)]; exact hget) hrc
      (ih (fun j hj => hagree j (List.mem_cons_of_mem _ hj)))

/-- Writing a slot whose count is nonzero cannot touch the free chain. -/
theorem freeChain_cases {T : Type} {store : ArrayStore T} {v : Nat} {L : List Nat}
    (h : FreeChain store v L) :
    (v = store.length ∧ L = []) ∨
    ∃ slot rest, L = v :: rest ∧ store.get? v = some slot ∧
      slot.ref_count = 0 ∧ FreeChain store slot.next rest := by
  cases h with
  | nil => exact Or.inl ⟨rfl, rfl⟩
  | cons hg hr hc => exact Or.inr ⟨_, _, rfl, hg, hr, hc⟩

theorem freeChain_set_busy {T : Type} {store : ArrayStore T} {v : Nat}
    {L : List Nat} (h : FreeChain store v L) (i : Nat) (slot : Slot T)
    (hget : store.get? i = some slot) (hrc : slot.ref_count ≠ 0) (sl' : Slot T) :
    FreeChain (store.set i sl') v L := by
  have hnotin : i ∉ L := by
    intro hin
    obtain ⟨slot2, hget2, hrc2⟩ := freeChain_mem_rc h i hin
    rw [hget] at hget2
    obtain rfl : slot = slot2 := by injection hget2
    exact hrc hrc2
  exact freeChain_congr (List.length_set _ _ _) h
    (fun j hj => List.get?_set_ne _ _ (fun hij => hnotin (hij ▸ hj)))

theorem countHandles_nil (j : Nat) : countHandles [] j = 0 := rfl

theorem countHandles_cons (h : HKind × Nat) (hs : List (HKind × Nat)) (j : Nat) :
    countHandles (h :: hs) j = countHandles hs j + if h.2 = j then 1 else 0 := by
  unfold countHandles
  rw [List.countP_cons]
  congr 1
  by_cases hij : h.2 = j
  · rw [if_pos hij, if_pos (by simpa using hij)]
  · rw [if_neg hij, if_neg (by simpa using hij)]

theorem countHandles_append (hs1 hs2 : List (HKind × Nat)) (j : Nat) :
    countHandles (hs1 ++ hs2) j = countHandles hs1 j + countHandles hs2 j :=
  List.countP_append _ _ _

theorem countHandles_middle (hs1 hs2 : List (HKind × Nat)) (h : HKind × Nat)
    (j : Nat) :
    countHandles (hs1 ++ h :: hs2) j =
      countHandles hs1 j + countHandles hs2 j + if h.2 = j then 1 else 0 := by
  rw [countHandles_append, countHandles_cons]
  omega

theorem countHandles_pos_of_mem {hs : List (HKind × Nat)} {h : HKind × Nat}
    (hmem : h ∈ hs) : 0 < countHandles hs h.2 :=
  List.countP_pos_iff.mpr ⟨h, hmem, by simp⟩

/-- The fixed-pool invariant holds at construction. -/
theorem finv_init {T : Type} [Clear T] (f : Nat → T) (cap : Nat) :
    FInv (⟨Slab.new (new_array cap f), []⟩ : PoolState (ArrayStore T)) := by
  have hlen : (new_array cap f).length = cap := by
    unfold new_array
    rw [List.length_map, List.length_range]
  have hget : ∀ k, k < cap → (new_array cap f).get? k = some (Slot.new (f k) k) := by
    intro k hk
    unfold new_array
    rw [List.get?_map, List.get?_range hk]
    rfl
  have hnone : ∀ k, ¬ k < cap → (new_array cap f).get? k = none := by
    intro k hk
    rw [List.get?_eq_none.mpr (by rw [hlen]; omega)]
  refine ⟨?_, ?_, ?_, ?_⟩
  · intro i slot h
    have h2 : (new_array cap f).get? i = some slot := h
    by_cases hi : i < cap
    · rw [hget i hi] at h2
      obtain rfl : Slot.new (f i) i = slot := by injection h2
      rfl
    · rw [hnone i hi] at h2; cases h2
  · intro i slot h
    have h2 : (new_array cap f).get? i = some slot := h
    by_cases hi : i < cap
    · rw [hget i hi] at h2
      obtain rfl : Slot.new (f i) i = slot := by injection h2
      rfl
    · rw [hnone i hi] at h2; cases h2
  · intro h hmem; cases hmem
  · refine ⟨List.range cap, ?_, List.nodup_range cap⟩
    have main : ∀ m k, k + m = cap →
        FreeChain (new_array cap f) k (List.range' k m) := by
      intro m
      induction m with
      | zero =>
        intro k hk
        obtain rfl : k = cap := by omega
        have h0 : FreeChain (new_array k f) ((new_array k f).length) [] :=
          FreeChain.nil
        rw [hlen] at h0
        exact h0
      | succ m ih =>
        intro k hk
        rw [List.range'_succ]
        exact FreeChain.cons (hget k (by omega)) rfl (ih (k + 1) (by omega))
    have hmain := main cap 0 (by omega)
    rw [List.range_eq_range']
    exact hmain

theorem arrayOps_getSlot {T : Type} (store : ArrayStore T) (i : Nat) :
    (arrayOps T).getSlot store i = store.get? i := rfl

theorem arrayOps_setSlot {T : Type} (store : ArrayStore T) (i : Nat) (sl : Slot T) :
    (arrayOps T).setSlot store i sl = store.set i sl := rfl

theorem arrayOps_count {T : Type} (store : ArrayStore T) :
    (arrayOps T).slot_count store = store.length := rfl

theorem set_get_self {α : Type} (l : List α) (i : Nat) (a : α)
    (h : l.get? i = some a) : l.set i a = l := by
  apply List.ext_get?
  intro n
  by_cases hni : i = n
  · subst hni
    rw [List.get?_set_eq_of_lt _ (List.get?_eq_some.mp h).1, h]
  · rw [List.get?_set_ne _ _ hni]

theorem array_clone_ref_eq {T : Type} (s : Slab (ArrayStore T)) (i : Nat)
    (slot : Slot T) (hget : s.inner.get? i = some slot) :
    Slab.clone_ref (arrayOps T) s i =
      { s with inner := s.inner.set i ({ slot with ref_count := slot.ref_count + 1 }) } := by
  unfold Slab.clone_ref
  rw [arrayOps_getSlot, hget]
  rfl

theorem array_drop_ref_eq {T : Type} (s : Slab (ArrayStore T)) (i : Nat)
    (slot : Slot T) (hget : s.inner.get? i = some slot) :
    Slab.drop_ref (arrayOps T) s i =
      if slot.ref_count = 1 then
        { inner := s.inner.set i ({ slot with ref_count := 0, next := s.head }),
          head := slot.idx, used := s.used - 1 }
      else
        { s with inner := s.inner.set i ({ slot with ref_count := slot.ref_count - 1 }) } := by
  unfold Slab.drop_ref
  rw [arrayOps_getSlot, hget]
  rfl

/-- Downgrading (clone_ref then a final drop of the consumed Owned) leaves the
slab exactly as it was, provided the slot is held (count at least 1). -/
theorem clone_then_drop_id {T : Type} (s : Slab (ArrayStore T)) (i : Nat)
    (slot : Slot T) (hget : s.inner.get? i = some slot)
    (hrc : 1 ≤ slot.ref_count) :
    Slab.drop_ref (arrayOps T) (Slab.clone_ref (arrayOps T) s i) i = s := by
  rw [array_clone_ref_eq s i slot hget]
  have hget2 : (s.inner.set i ({ slot with ref_count := slot.ref_count + 1 })).get? i =
      some ({ slot with ref_count := slot.ref_count + 1 }) :=
    List.get?_set_eq_of_lt _ (List.get?_eq_some.mp hget).1
  rw [array_drop_ref_eq _ i _ hget2]
  rw [if_neg (by dsimp only; omega)]
  rw [List.set_set]
  show Slab.mk (s.inner.set i slot) s.head s.used = s
  rw [set_get_self s.inner i slot hget]

/-- The fixed-pool invariant is preserved by every completed operation. -/
theorem finv_step {T : Type} [Clear T] {s s' : PoolState (ArrayStore T)}
    (inv : FInv s) (hstep : FStep s s') : FInv s' := by
  obtain ⟨idxs, counts, hbound, L, hchain, hnodup⟩ := inv
  cases hstep with
  | @checkout i slab' hok =>
    obtain ⟨rfl, hlt, slot, hsome, hrc, rfl⟩ := (try_checkout_ok_iff _ _ _ _).mp hok
    have hsome' : s.slab.inner.get? s.slab.head = some slot := hsome
    have hlt' : s.slab.head < s.slab.inner.length := hlt
    have hidxhead : slot.idx = s.slab.head := idxs _ _ hsome'
    have hcount0 : countHandles s.handles s.slab.head = 0 := by
      rw [← counts _ _ hsome', hrc]
    obtain ⟨slot2, rest, hL, hget2, hrc2, hch2⟩ :
        ∃ slot2 rest, L = s.slab.head :: rest ∧
          s.slab.inner.get? s.slab.head = some slot2 ∧ slot2.ref_count = 0 ∧
          FreeChain s.slab.inner slot2.next rest := by
      rcases freeChain_cases hchain with ⟨heq, -⟩ | ⟨slot2, rest, hL, hg, hr, hc⟩
      · omega
      · exact ⟨slot2, rest, hL, hg, hr, hc⟩
    rw [hsome'] at hget2
    have hss : slot = slot2 := by injection hget2
    subst hss
    have hnotin : s.slab.head ∉ rest := by
      rw [hL] at hnodup
      exact (List.nodup_cons.mp hnodup).1
    refine ⟨?_, ?_, ?_, rest, ?_, ?_⟩
    · intro n sl' h
      have h2 : (s.slab.inner.set s.slab.head _).get? n = some sl' := h
      by_cases hn : s.slab.head = n
      · subst hn
        rw [List.get?_set_eq_of_lt _ hlt'] at h2
        obtain rfl : _ = sl' := by injection h2
        exact hidxhead
      · rw [List.get?_set_ne _ _ hn] at h2
        exact idxs _ _ h2
    · intro n sl' h
      have h2 : (s.slab.inner.set s.slab.head _).get? n = some sl' := h
      show sl'.ref_count = countHandles ((HKind.owned, s.slab.head) :: s.handles) n
      rw [countHandles_cons]
      by_cases hn : s.slab.head = n
      · subst hn
        rw [List.get?_set_eq_of_lt _ hlt'] at h2
        obtain rfl : _ = sl' := by injection h2
        dsimp only
        rw [hcount0, if_pos rfl]
      · rw [List.get?_set_ne _ _ hn] at h2
        rw [if_neg hn, counts _ _ h2]
        omega
    · intro h hmem
      rcases List.mem_cons.mp hmem with rfl | hmem
      · show s.slab.head < (s.slab.inner.set _ _).length
        rw [List.length_set]
        exact hlt'
      · show h.2 < (s.slab.inner.set _ _).length
        rw [List.length_set]
        exact hbound h hmem
    · show FreeChain (s.slab.inner.set s.slab.head _) slot.next rest
      exact freeChain_congr (List.length_set _ _ _) hch2
        (fun j hj => List.get?_set_ne _ _ (fun hjh => hnotin (hjh ▸ hj)))
    · rw [hL] at hnodup
      exact (List.nodup_cons.mp hnodup).2
  | @downgrade i hs1 hs2 hsplit =>
    have hmem : (HKind.owned, i) ∈ s.handles := by
      rw [hsplit]
      exact List.mem_append_right _ (List.mem_cons_self _ _)
    have hlt : i < s.slab.inner.length := hbound _ hmem
    obtain ⟨slot, hget⟩ : ∃ slot, s.slab.inner.get? i = some slot :=
      ⟨_, List.get?_eq_get hlt⟩
    have hrcpos : 1 ≤ slot.ref_count := by
      rw [counts _ _ hget]
      exact countHandles_pos_of_mem hmem
    rw [clone_then_drop_id s.slab i slot hget hrcpos]
    refine ⟨idxs, ?_, ?_, L, hchain, hnodup⟩
    · intro n sl' h
      rw [counts _ _ h, hsplit, countHandles_middle, countHandles_middle]
    · intro h hmem2
      rcases List.mem_append.mp hmem2 with h1 | h2
      · exact hbound h (by rw [hsplit]; exact List.mem_append_left _ h1)
      · rcases List.mem_cons.mp h2 with rfl | h3
        · exact hlt
        · exact hbound h
            (by rw [hsplit]; exact List.mem_append_right _ (List.mem_cons_of_mem _ h3))
  | @clone i hmem =>
    have hlt : i < s.slab.inner.length := hbound _ hmem
    obtain ⟨slot, hget⟩ : ∃ slot, s.slab.inner.get? i = some slot :=
      ⟨_, List.get?_eq_get hlt⟩
    have hrcpos : 1 ≤ slot.ref_count := by
      rw [counts _ _ hget]
      exact countHandles_pos_of_mem hmem
    rw [array_clone_ref_eq s.slab i slot hget]
    refine ⟨?_, ?_, ?_, L, ?_, hnodup⟩
    · intro n sl' h
      have h2 : (s.slab.inner.set i _).get? n = some sl' := h
      by_cases hn : i = n
      · subst hn
        rw [List.get?_set_eq_of_lt _ hlt] at h2
        obtain rfl : _ = sl' := by injection h2
        exact idxs i slot hget
      · rw [List.get?_set_ne _ _ hn] at h2
        exact idxs _ _ h2
    · intro n sl' h
      have h2 : (s.slab.inner.set i _).get? n = some sl' := h
      show sl'.ref_count = countHandles ((HKind.shared, i) :: s.handles) n
      rw [countHandles_cons]
      by_cases hn : i = n
      · subst hn
        rw [List.get?_set_eq_of_lt _ hlt] at h2
        obtain rfl : _ = sl' := by injection h2
        dsimp only
        rw [counts _ _ hget, if_pos rfl]
      · rw [List.get?_set_ne _ _ hn] at h2
        rw [if_neg hn, counts _ _ h2]
        omega
    · intro h hmem2
      show h.2 < (s.slab.inner.set _ _).length
      rw [List.length_set]
      rcases List.mem_cons.mp hmem2 with rfl | hmem2
      · exact hlt
      · exact hbound h hmem2
    · exact freeChain_set_busy hchain i slot hget (by omega) _
  | @drop h hs1 hs2 hsplit =>
    have hmem : h ∈ s.handles := by
      rw [hsplit]
      exact List.mem_append_right _ (List.mem_cons_self _ _)
    have hlt : h.2 < s.slab.inner.length := hbound _ hmem
    obtain ⟨slot, hget⟩ : ∃ slot, s.slab.inner.get? h.2 = some slot :=
      ⟨_, List.get?_eq_get hlt⟩
    have hrceq : slot.ref_count =
        countHandles hs1 h.2 + countHandles hs2 h.2 + 1 := by
      rw [counts _ _ hget, hsplit, countHandles_middle, if_pos rfl]
    have hsub : ∀ g, g ∈ hs1 ++ hs2 → g ∈ s.handles := by
      intro g hg
      rw [hsplit]
      rcases List.mem_append.mp hg with h1 | h2
      · exact List.mem_append_left _ h1
      · exact List.mem_append_right _ (List.mem_cons_of_mem _ h2)
    have hcount' : ∀ n, countHandles (hs1 ++ hs2) n =
        countHandles s.handles n - (if h.2 = n then 1 else 0) := by
      intro n
      rw [hsplit, countHandles_middle, countHandles_append]
      omega
    rw [array_drop_ref_eq s.slab h.2 slot hget]
    by_cases hone : slot.ref_count = 1
    · rw [if_pos hone]
      have hz1 : countHandles hs1 h.2 = 0 := by omega
      have hz2 : countHandles hs2 h.2 = 0 := by omega
      have hidx2 : slot.idx = h.2 := idxs _ _ hget
      have hnotinL : h.2 ∉ L := by
        intro hin
        obtain ⟨slot2, hget2, hrc2⟩ := freeChain_mem_rc hchain _ hin
        rw [hget] at hget2
        obtain rfl : slot = slot2 := by injection hget2
        omega
      refine ⟨?_, ?_, ?_, h.2 :: L, ?_, ?_⟩
      · intro n sl' hx
        have h2 : (s.slab.inner.set h.2 _).get? n = some sl' := hx
        by_cases hn : h.2 = n
        · subst hn
          rw [List.get?_set_eq_of_lt _ hlt] at h2
          obtain rfl : _ = sl' := by injection h2
          exact hidx2
        · rw [List.get?_set_ne _ _ hn] at h2
          exact idxs _ _ h2
      · intro n sl' hx
        have h2 : (s.slab.inner.set h.2 _).get? n = some sl' := hx
        show sl'.ref_count = countHandles (hs1 ++ hs2) n
        rw [hcount' n]
        by_cases hn : h.2 = n
        · subst hn
          rw [List.get?_set_eq_of_lt _ hlt] at h2
          obtain rfl : _ = sl' := by injection h2
          have hcs : slot.ref_count = countHandles s.handles h.2 := counts _ _ hget
          dsimp only
          rw [if_pos rfl]
          omega
        · rw [List.get?_set_ne _ _ hn] at h2
          rw [counts _ _ h2, if_neg hn]
          omega
      · intro g hg
        show g.2 < (s.slab.inner.set _ _).length
        rw [List.length_set]
        exact hbound g (hsub g hg)
      · show FreeChain (s.slab.inner.set h.2 _) slot.idx (h.2 :: L)
        rw [hidx2]
        refine FreeChain.cons (List.get?_set_eq_of_lt _ hlt) rfl ?_
        show FreeChain _ s.slab.head L
        exact freeChain_congr (List.length_set _ _ _) hchain
          (fun j hj => List.get?_set_ne _ _ (fun hjh => hnotinL (hjh ▸ hj)))
      · exact List.nodup_cons.mpr ⟨hnotinL, hnodup⟩
    · rw [if_neg hone]
      have hnotinL : h.2 ∉ L := by
        intro hin
        obtain ⟨slot2, hget2, hrc2⟩ := freeChain_mem_rc hchain _ hin
        rw [hget] at hget2
        obtain rfl : slot = slot2 := by injection hget2
        omega
      refine ⟨?_, ?_, ?_, L, ?_, hnodup⟩
      · intro n sl' hx
        have h2 : (s.slab.inner.set h.2 _).get? n = some sl' := hx
        by_cases hn : h.2 = n
        · subst hn
          rw [List.get?_set_eq_of_lt _ hlt] at h2
          obtain rfl : _ = sl' := by injection h2
          exact idxs h.2 slot hget
        · rw [List.get?_set_ne _ _ hn] at h2
          exact idxs _ _ h2
      · intro n sl' hx
        have h2 : (s.slab.inner.set h.2 _).get? n = some sl' := hx
        show sl'.ref_count = countHandles (hs1 ++ hs2) n
        rw [hcount' n]
        by_cases hn : h.2 = n
        · subst hn
          rw [List.get?_set_eq_of_lt _ hlt] at h2
          obtain rfl : _ = sl' := by injection h2
          have hcs : slot.ref_count = countHandles s.handles h.2 := counts _ _ hget
          dsimp only
          rw [if_pos rfl]
          omega
        · rw [List.get?_set_ne _ _ hn] at h2
          rw [counts _ _ h2, if_neg hn]
          omega
      · intro g hg
        show g.2 < (s.slab.inner.set _ _).length
        rw [List.length_set]
        exact hbound g (hsub g hg)
      · exact freeChain_set_busy hchain h.2 slot hget (by omega) _

/-- Every reachable fixed-pool state satisfies the invariant. -/
theorem finv_of_reach {T : Type} [Clear T] {f : Nat → T} {cap : Nat}
    {s : PoolState (ArrayStore T)} (h : FReach f cap s) : FInv s := by
  induction h with
  | init => exact finv_init f cap
  | step _ hstep ih => exact finv_step ih hstep

/-- C5: in every state of the fixed pool reachable from construction through
completed operations (checkout, downgrade, Shared clone, handle drop), each
slot's ref_count equals the number of live Owned plus Shared handles on it.
Checkout sets it from 0 to 1 with a new Owned, downgrade's increment-then-
decrement leaves it unchanged while swapping Owned for Shared, cloning adds
one, dropping subtracts one (freeing at zero) — as encoded in FStep. -/
theorem c5_refcount_matches_handles {T : Type} [Clear T] (f : Nat → T)
    (cap : Nat) (s : PoolState (ArrayStore T)) (h : FReach f cap s) :
    ∀ i slot, s.slab.inner.get? i = some slot →
      slot.ref_count = countHandles s.handles i :=
  (finv_of_reach h).counts

/-- C5 witness: the capacity-1 pool after one checkout; slot 0 has ref_count 1
and exactly one live handle. -/
theorem c5_witness :
    ({ item := (0 : Nat), idx := 0, ref_count := 1, next := 1 } : Slot Nat).ref_count =
      countHandles [(HKind.owned, 0)] 0 :=
  c5_refcount_matches_handles (fun _ => (0 : Nat)) 1
    ⟨{ inner := [{ item := 0, idx := 0, ref_count := 1, next := 1 }],
       head := 1, used := 1 }, [(HKind.owned, 0)]⟩
    (FReach.step FReach.init (FStep.checkout rfl))
    0 { item := 0, idx := 0, ref_count := 1, next := 1 } rfl

/-- In a reachable fixed-pool state the slab step never reports ShouldRetry:
below capacity the free-chain head is an existing slot with count 0, so the
acquire and the head CAS both succeed. -/
theorem fixed_no_retry {T : Type} [Clear T] {f : Nat → T} {cap : Nat}
    {s : PoolState (ArrayStore T)} (h : FReach f cap s) :
    (s.slab.head ≥ s.slab.inner.length ∧
      Slab.try_checkout (arrayOps T) s.slab = .error .AtCapacity) ∨
    ∃ r, Slab.try_checkout (arrayOps T) s.slab = .ok r := by
  obtain ⟨idxs, counts, hbound, L, hchain, hnodup⟩ := finv_of_reach h
  rcases freeChain_cases hchain with ⟨heq, -⟩ | ⟨slot, rest, hL, hget, hrc, hch⟩
  · exact Or.inl ⟨by omega, try_checkout_atCapacity _ _ (by rw [arrayOps_count]; omega)⟩
  · refine Or.inr ⟨(s.slab.head, _), (try_checkout_ok_iff _ _ _ _).mpr
      ⟨rfl, ?_, slot, hget, hrc, rfl⟩⟩
    rw [arrayOps_count]
    exact (List.get?_eq_some.mp hget).1

/-- C6 amended: for the fixed pool in reachable states, the public
try_checkout (a fuelled spin loop) returns None exactly when the slab reports
AtCapacity and a handle exactly on success; ShouldRetry never occurs.  For
the growable pool, AtCapacity maps to None, success to a handle, and
ShouldRetry is never surfaced but retried — and since a retry leaves the
state unchanged, a state whose slab step is ShouldRetry makes try_checkout
spin without returning (None at every fuel in the fuel model). -/
theorem c6_amended :
    (∀ (T : Type) [inst : Clear T] (f : Nat → T) (cap : Nat)
      (s : PoolState (ArrayStore T)) (fuel : Nat), FReach f cap s →
      (pubTryCheckout (arrayOps T) (fuel + 1) s.slab = none ↔
        Slab.try_checkout (arrayOps T) s.slab = .error .AtCapacity) ∧
      (∀ r, Slab.try_checkout (arrayOps T) s.slab = .ok r →
        pubTryCheckout (arrayOps T) (fuel + 1) s.slab = some r) ∧
      Slab.try_checkout (arrayOps T) s.slab ≠ .error .ShouldRetry) ∧
    (∀ (T : Type) [inst : Clear T] (gs : Slab (SlabList (Slot T))) (fuel : Nat),
      (Slab.try_checkout (listOps T) gs = .error .AtCapacity →
        pubTryCheckout (listOps T) (fuel + 1) gs = none) ∧
      (∀ r, Slab.try_checkout (listOps T) gs = .ok r →
        pubTryCheckout (listOps T) (fuel + 1) gs = some r) ∧
      (Slab.try_checkout (listOps T) gs = .error .ShouldRetry →
        pubTryCheckout (listOps T) (fuel + 1) gs = pubTryCheckout (listOps T) fuel gs ∧
        pubTryCheckout (listOps T) fuel gs = none)) := by
  constructor
  · intro T inst f cap s fuel hreach
    rcases fixed_no_retry hreach with ⟨hge, herr⟩ | ⟨r, hok⟩
    · refine ⟨?_, ?_, ?_⟩
      · rw [show pubTryCheckout (arrayOps T) (fuel + 1) s.slab = none by
          unfold pubTryCheckout; rw [herr]]
        exact ⟨fun _ => herr, fun _ => rfl⟩
      · intro r hok
        rw [herr] at hok
        exact absurd hok (by simp)
      · rw [herr]
        intro hx
        exact absurd (by injection hx) (by simp : ¬ SlabError.AtCapacity = SlabError.ShouldRetry)
    · refine ⟨?_, ?_, ?_⟩
      · constructor
        · intro hnone
          rw [show pubTryCheckout (arrayOps T) (fuel + 1) s.slab = some r by
            unfold pubTryCheckout; rw [hok]] at hnone
          exact absurd hnone (by simp)
        · intro herr
          rw [herr] at hok
          exact absurd hok (by simp)
      · intro r2 hok2
        rw [hok] at hok2
        obtain rfl : r = r2 := by injection hok2
        unfold pubTryCheckout
        rw [hok]
      · rw [hok]
        intro hx
        exact absurd hx (by simp)
  · intro T inst gs fuel
    refine ⟨?_, ?_, ?_⟩
    · intro herr
      unfold pubTryCheckout
      rw [herr]
    · intro r hok
      unfold pubTryCheckout
      rw [hok]
    · intro herr
      have hstep1 : pubTryCheckout (listOps T) (fuel + 1) gs =
          pubTryCheckout (listOps T) fuel gs := by
        conv_lhs => unfold pubTryCheckout
        rw [herr]
      have hall : ∀ m, pubTryCheckout (listOps T) m gs = none := by
        intro m
        induction m with
        | zero => rfl
        | succ n ih =>
          show pubTryCheckout (listOps T) (n + 1) gs = none
          conv_lhs => unfold pubTryCheckout
          rw [herr]
          exact ih
      exact ⟨hstep1, hall fuel⟩

/-- C6 amended witness: the fixed part applied at the freshly built
capacity-1 pool (a successful checkout), the growable part at the reachable
aliased state where the slab reports ShouldRetry. -/
theorem c6_amended_witness :
    ((pubTryCheckout (arrayOps Nat) 3
        (Slab.new (new_array 1 (fun _ => (0 : Nat)))) = none ↔
      Slab.try_checkout (arrayOps Nat)
        (Slab.new (new_array 1 (fun _ => (0 : Nat)))) = .error .AtCapacity) ∧
      Slab.try_checkout (arrayOps Nat)
        (Slab.new (new_array 1 (fun _ => (0 : Nat)))) ≠ .error .ShouldRetry) ∧
    (Slab.try_checkout (listOps Nat) c6state = .error .ShouldRetry →
      pubTryCheckout (listOps Nat) 4 c6state = pubTryCheckout (listOps Nat) 3 c6state ∧
      pubTryCheckout (listOps Nat) 3 c6state = none) :=
  ⟨⟨((c6_amended.1 Nat (fun _ => (0 : Nat)) 1 ⟨_, []⟩ 2 FReach.init).1),
    ((c6_amended.1 Nat (fun _ => (0 : Nat)) 1 ⟨_, []⟩ 2 FReach.init).2.2)⟩,
   (c6_amended.2 Nat c6state 3).2.2⟩

/-- C6 counterexample: a growable pool of capacity 8 after 16 public
checkouts (the 9th grew the pool) reaches a state where the slab reports
ShouldRetry — not AtCapacity — because the free-list head (17) aliases the
already-held slot 9; the public try_checkout therefore spins and yields no
value even with generous fuel, contradicting the claim that it returns a
checkout handle whenever the slab is not AtCapacity. -/
theorem c6_growable_retries_forever :
    Slab.try_checkout (listOps Nat) c6state = .error .ShouldRetry ∧
    SlabError.ShouldRetry ≠ SlabError.AtCapacity ∧
    c6state.head = 17 ∧
    c6state.inner.capacity = 32 ∧
    pubTryCheckout (listOps Nat) 50 c6state = none := by
  refine ⟨rfl, by decide, rfl, rfl, rfl⟩

/-! ### The stranding invariant of the growable pool (C9) -/

theorem listOps_getSlot {T : Type} (l : SlabList (Slot T)) (i : Nat) :
    (listOps T).getSlot l i = l.with_idx i := rfl

theorem listOps_count {T : Type} (l : SlabList (Slot T)) :
    (listOps T).slot_count l = l.capacity := rfl
/-- Eliminating AtCapacity: either the head is at or past the reported slot
count, or the head's lookup found no slot (the ok_or fallback). -/
theorem try_checkout_atCapacity_elim {S T : Type} [Clear T] (ops : StoreOps S T)
    (s : Slab S) (h : Slab.try_checkout ops s = .error .AtCapacity) :
    s.head ≥ ops.slot_count s.inner ∨ ops.getSlot s.inner s.head = none := by
  by_cases hge : s.head ≥ ops.slot_count s.inner
  · exact Or.inl hge
  · right
    revert h
    simp only [Slab.try_checkout]
    rw [if_neg (by omega)]
    cases hget : ops.getSlot s.inner s.head with
    | none => intro _; rfl
    | some slot =>
      dsimp only
      by_cases hrc : slot.ref_count = 0
      · rw [if_pos hrc, if_pos trivial]
        intro h
        exact absurd h (by simp)
      · rw [if_neg hrc]
        intro h
        injection h with h2
        cases h2
/-- Characterisation of the block walk: the skipped prefix plus the offset
recovers the index, and the offset lies within the landing block. -/
theorem walkLens_spec (ls : List Nat) (i k o : Nat)
    (h : walkLens ls i = some (k, o)) :
    (ls.take k).sum + o = i ∧ ∃ n, ls.get? k = some n ∧ o < n := by
  induction ls generalizing i k with
  | nil => cases h
  | cons n rest ih =>
    unfold walkLens at h
    by_cases hi : i < n
    · rw [if_pos hi] at h
      injection h with h
      obtain rfl : 0 = k := congrArg Prod.fst h
      obtain rfl : i = o := congrArg Prod.snd h
      exact ⟨by simp, n, rfl, hi⟩
    · rw [if_neg hi] at h
      cases hw : walkLens rest (i - n) with
      | none => rw [hw] at h; cases h
      | some p =>
        obtain ⟨k', o'⟩ := p
        rw [hw] at h
        simp only [Option.map_some'] at h
        injection h with h
        obtain rfl : k' + 1 = k := congrArg Prod.fst h
        obtain rfl : o' = o := congrArg Prod.snd h
        obtain ⟨hsum, n', hget, hlt⟩ := ih (i - n) k' hw
        refine ⟨?_, n', ?_, hlt⟩
        · rw [List.take_succ_cons, List.sum_cons]
          omega
        · rw [List.get?_cons_succ]
          exact hget

/-- The walk succeeds strictly below the total of the block lengths. -/
theorem walkLens_isSome (ls : List Nat) (i : Nat) (h : i < ls.sum) :
    ∃ k o, walkLens ls i = some (k, o) := by
  induction ls generalizing i with
  | nil => simp at h
  | cons n rest ih =>
    unfold walkLens
    by_cases hi : i < n
    · rw [if_pos hi]; exact ⟨0, i, rfl⟩
    · rw [if_neg hi]
      obtain ⟨k, o, hw⟩ := ih (i - n) (by rw [List.sum_cons] at h; omega)
      rw [hw]
      exact ⟨k + 1, o, rfl⟩

/-- The flat cell list is as long as the actual slot total. -/
theorem flatCells_length {A : Type} (l : SlabList A) :
    l.flatCells.length = l.slotTotal := by
  unfold SlabList.flatCells SlabList.slotTotal
  rw [List.length_flatten, List.map_map]
  rfl

/-- Below the tail capacity, with_idx is exactly flat indexing. -/
theorem with_idx_flat {A : Type} (l : SlabList A) (i : Nat)
    (hle : i ≤ l.tail_capacity) : l.with_idx i = l.flatCells.get? i := by
  rw [with_idx_eq_lookupCoord]
  unfold SlabList.resolve
  rw [if_neg (by have := tail_capacity_le_capacity l; omega)]
  dsimp only
  rw [if_neg (by omega)]
  exact lookupCoord_walkLens l.blocks i

/-- If index i resolves to offset 0 of block K, then i is the total length of
the blocks before K (the tail shortcut never lands at offset 0). -/
theorem resolve_coord_flat {A : Type} (l : SlabList A) (i K z : Nat)
    (hres : l.resolve i = some (K, 0))
    (hz : ((l.blocks.map (fun b => b.cells.length)).take K).sum = z) : i = z := by
  unfold SlabList.resolve at hres
  by_cases hcap : i > l.capacity
  · rw [if_pos hcap] at hres; cases hres
  · rw [if_neg hcap] at hres
    dsimp only at hres
    by_cases hhalf : i > l.tail_capacity
    · rw [if_pos hhalf] at hres
      cases hl : l.blocks.getLast? with
      | none => rw [hl] at hres; cases hres
      | some tb =>
        rw [hl] at hres
        dsimp only at hres
        by_cases hoff : i - l.tail_capacity < tb.cells.length
        · rw [if_pos hoff] at hres
          injection hres with h
          have h2 := congrArg Prod.snd h
          dsimp only at h2
          omega
        · rw [if_neg hoff] at hres; cases hres
    · rw [if_neg hhalf] at hres
      obtain ⟨hsum, -⟩ := walkLens_spec _ i K 0 hres
      omega

theorem with_idx_some_elim {A : Type} (l : SlabList A) (i : Nat) (a : A)
    (h : l.with_idx i = some a) :
    ∃ k o b, l.resolve i = some (k, o) ∧ l.blocks.get? k = some b ∧
      b.cells.get? o = some a := by
  unfold SlabList.with_idx at h
  cases hres : l.resolve i with
  | none => rw [hres] at h; cases h
  | some p =>
    obtain ⟨k, o⟩ := p
    rw [hres] at h
    dsimp only at h
    cases hb : l.blocks.get? k with
    | none => rw [hb] at h; cases h
    | some b =>
      rw [hb] at h
      exact ⟨k, o, b, rfl, hb, h⟩
/-- Reported capacity of a single-block list: the block's length. -/
theorem sb_capacity {A : Type} (cells : List A) :
    (⟨[⟨cells⟩]⟩ : SlabList A).capacity = cells.length := by
  unfold SlabList.capacity SlabList.tail_capacity
  simp

/-- Tail capacity of a single-block list: the block's length. -/
theorem sb_tail_capacity {A : Type} (cells : List A) :
    (⟨[⟨cells⟩]⟩ : SlabList A).tail_capacity = cells.length := by
  unfold SlabList.tail_capacity
  simp

/-- Flat cells of a single-block list: the block itself. -/
theorem sb_flat {A : Type} (cells : List A) :
    (⟨[⟨cells⟩]⟩ : SlabList A).flatCells = cells := by
  unfold SlabList.flatCells
  simp

/-- Resolution on a single-block list is plain bounds-checked indexing. -/
theorem sb_resolve {A : Type} (cells : List A) (i : Nat) :
    (⟨[⟨cells⟩]⟩ : SlabList A).resolve i =
      if i < cells.length then some (0, i) else none := by
  unfold SlabList.resolve
  rw [sb_capacity, sb_tail_capacity]
  by_cases h1 : i > cells.length
  · rw [if_pos h1, if_neg (by omega)]
  · rw [if_neg h1]
    dsimp only
    rw [if_neg (by omega)]
    show walkLens [cells.length] i = _
    unfold walkLens
    by_cases h2 : i < cells.length
    · rw [if_pos h2, if_pos h2]
    · rw [if_neg h2, if_neg h2]
      rfl

/-- On a single-block list, with_idx is the array lookup. -/
theorem sb_with_idx {A : Type} (cells : List A) (i : Nat) :
    (⟨[⟨cells⟩]⟩ : SlabList A).with_idx i = cells.get? i := by
  unfold SlabList.with_idx
  rw [sb_resolve]
  by_cases h : i < cells.length
  · rw [if_pos h]
    rfl
  · rw [if_neg h]
    rw [List.get?_eq_none.mpr (by omega)]

/-- On a single-block list, setIdx is the array update. -/
theorem sb_setIdx {A : Type} (cells : List A) (i : Nat) (a : A) :
    (⟨[⟨cells⟩]⟩ : SlabList A).setIdx i a = ⟨[⟨cells.set i a⟩]⟩ := by
  unfold SlabList.setIdx
  rw [sb_resolve]
  by_cases h : i < cells.length
  · rw [if_pos h]
    rfl
  · rw [if_neg h]
    rw [List.set_eq_of_length_le (by omega)]
/-- clone_ref on a single-block slab commutes with the flat view. -/
theorem sb_clone_comm {T : Type} (cells : List (Slot T)) (h u i : Nat) :
    ∃ cells2,
      Slab.clone_ref (listOps T) ⟨⟨[⟨cells⟩]⟩, h, u⟩ i = ⟨⟨[⟨cells2⟩]⟩, h, u⟩ ∧
      Slab.clone_ref (arrayOps T) ⟨cells, h, u⟩ i = ⟨cells2, h, u⟩ ∧
      cells2.length = cells.length := by
  unfold Slab.clone_ref
  rw [show (listOps T).getSlot (⟨⟨[⟨cells⟩]⟩, h, u⟩ : Slab (SlabList (Slot T))).inner i =
    (⟨[⟨cells⟩]⟩ : SlabList (Slot T)).with_idx i from rfl, sb_with_idx]
  rw [show (arrayOps T).getSlot (⟨cells, h, u⟩ : Slab (ArrayStore T)).inner i =
    cells.get? i from rfl]
  cases hget : cells.get? i with
  | none => exact ⟨cells, rfl, rfl, rfl⟩
  | some slot =>
    refine ⟨cells.set i ({ slot with ref_count := slot.ref_count + 1 }), ?_, rfl,
      List.length_set _ _ _⟩
    show Slab.mk ((⟨[⟨cells⟩]⟩ : SlabList (Slot T)).setIdx i _) h u = _
    rw [sb_setIdx]

/-- drop_ref on a single-block slab commutes with the flat view. -/
theorem sb_drop_comm {T : Type} (cells : List (Slot T)) (h u i : Nat) :
    ∃ cells2 h2 u2,
      Slab.drop_ref (listOps T) ⟨⟨[⟨cells⟩]⟩, h, u⟩ i = ⟨⟨[⟨cells2⟩]⟩, h2, u2⟩ ∧
      Slab.drop_ref (arrayOps T) ⟨cells, h, u⟩ i = ⟨cells2, h2, u2⟩ ∧
      cells2.length = cells.length := by
  unfold Slab.drop_ref
  rw [show (listOps T).getSlot (⟨⟨[⟨cells⟩]⟩, h, u⟩ : Slab (SlabList (Slot T))).inner i =
    (⟨[⟨cells⟩]⟩ : SlabList (Slot T)).with_idx i from rfl, sb_with_idx]
  rw [show (arrayOps T).getSlot (⟨cells, h, u⟩ : Slab (ArrayStore T)).inner i =
    cells.get? i from rfl]
  cases hget : cells.get? i with
  | none => exact ⟨cells, h, u, rfl, rfl, rfl⟩
  | some slot =>
    dsimp only
    by_cases hrc : slot.ref_count = 1
    · rw [if_pos hrc, if_pos hrc]
      refine ⟨cells.set i ({ slot with ref_count := 0, next := h }), slot.idx, u - 1,
        ?_, rfl, List.length_set _ _ _⟩
      show Slab.mk ((⟨[⟨cells⟩]⟩ : SlabList (Slot T)).setIdx i _) slot.idx (u - 1) = _
      rw [sb_setIdx]
    · rw [if_neg hrc, if_neg hrc]
      refine ⟨cells.set i ({ slot with ref_count := slot.ref_count - 1 }), h, u,
        ?_, rfl, List.length_set _ _ _⟩
      show Slab.mk ((⟨[⟨cells⟩]⟩ : SlabList (Slot T)).setIdx i _) h u = _
      rw [sb_setIdx]

/-- A free chain's link value never exceeds the sentinel. -/
theorem freeChain_head_le {T : Type} {store : ArrayStore T} {v : Nat} {L : List Nat}
    (h : FreeChain store v L) : v ≤ store.length := by
  cases h with
  | nil => exact le_refl _
  | cons hget hrc hch => exact le_of_lt (List.get?_eq_some.mp hget).1

/-- The chain from the sentinel itself is empty. -/
theorem freeChain_terminal {T : Type} {store : ArrayStore T} {L : List Nat}
    (h : FreeChain store store.length L) : L = [] := by
  cases h with
  | nil => rfl
  | cons hget hrc hch =>
    exact absurd hget (by rw [List.get?_eq_none.mpr (le_refl _)]; simp)

/-- In a store whose slots are untouched from h on (count 0, next = position
plus one), the free chain from h is the run h, h+1, … up to the length. -/
theorem freeChain_suffix {T : Type} (store : ArrayStore T) :
    ∀ (m h : Nat), h + m = store.length →
    (∀ k c, h ≤ k → store.get? k = some c → c.ref_count = 0 ∧ c.next = k + 1) →
    FreeChain store h (List.range' h m) := by
  intro m
  induction m with
  | zero =>
    intro h hlen hfresh
    obtain rfl : h = store.length := by omega
    exact FreeChain.nil
  | succ m ih =>
    intro h hlen hfresh
    have hlt : h < store.length := by omega
    obtain ⟨c, hc⟩ : ∃ c, store.get? h = some c := by
      rw [List.get?_eq_get hlt]
      exact ⟨_, rfl⟩
    obtain ⟨hrc, hnext⟩ := hfresh h c (le_refl _) hc
    rw [List.range'_succ]
    refine FreeChain.cons hc hrc ?_
    rw [hnext]
    exact ih (h + 1) (by omega) (fun k c hk hget => hfresh k c (by omega) hget)

/-- Coverage for a store of fresh slots, the head anywhere within bounds, as
long as the next links of the slots below the head avoid the sentinel. -/
theorem covinv_fresh {T : Type} (store : ArrayStore T) (h u : Nat)
    (hle : h ≤ store.length)
    (hfresh : ∀ k c, store.get? k = some c → c.ref_count = 0 ∧ c.next = k + 1)
    (hoff : ∀ j, j < h → j + 1 ≠ store.length) :
    CovInv ⟨store, h, u⟩ := by
  refine ⟨List.range' h (store.length - h),
    freeChain_suffix store (store.length - h) h (by omega)
      (fun k c hk hget => hfresh k c hget),
    List.nodup_range' _ _, ?_, ?_⟩
  · intro p c hget hrc
    by_cases hp : h ≤ p
    · left
      rw [List.mem_range'_1]
      exact ⟨hp, by have h2 : p < store.length := (List.get?_eq_some.mp hget).1; omega⟩
    · right
      rw [(hfresh p c hget).2]
      exact hoff p (by omega)
  · intro c hc
    obtain ⟨p, hp⟩ := List.mem_iff_get?.mp hc
    rw [(hfresh p c hp).2]
    exact (List.get?_eq_some.mp hp).1

/-- The fixed-pool invariant for a store of fresh slots with no handles and
the head anywhere within bounds. -/
theorem finv_fresh {T : Type} (store : ArrayStore T) (h u : Nat)
    (hle : h ≤ store.length)
    (hfresh : ∀ k c, store.get? k = some c →
      c.idx = k ∧ c.ref_count = 0 ∧ c.next = k + 1) :
    FInv (⟨⟨store, h, u⟩, []⟩ : PoolState (ArrayStore T)) := by
  refine ⟨?_, ?_, ?_, ?_⟩
  · intro i slot hg; exact (hfresh i slot hg).1
  · intro i slot hg; exact (hfresh i slot hg).2.1
  · intro x hmem; cases hmem
  · exact ⟨List.range' h (store.length - h),
      freeChain_suffix store (store.length - h) h (by omega)
        (fun k c hk hg => (hfresh k c hg).2),
      List.nodup_range' _ _⟩
/-- Free-list coverage is preserved by every fixed-pool operation. -/
theorem cov_step {T : Type} [Clear T] {s s' : PoolState (ArrayStore T)}
    (inv : FInv s) (cov : CovInv s.slab) (hstep : FStep s s') : CovInv s'.slab := by
  obtain ⟨L, hchain, hnodup, hcover, hnbound⟩ := cov
  obtain ⟨idxs, counts, hbound, -⟩ := inv
  cases hstep with
  | @checkout i slab' hok =>
    obtain ⟨rfl, hlt, slot, hsome, hrc, rfl⟩ := (try_checkout_ok_iff _ _ _ _).mp hok
    have hsome' : s.slab.inner.get? s.slab.head = some slot := hsome
    have hlt' : s.slab.head < s.slab.inner.length := hlt
    obtain ⟨slot2, rest, hL, hget2, hrc2, hch2⟩ :
        ∃ slot2 rest, L = s.slab.head :: rest ∧
          s.slab.inner.get? s.slab.head = some slot2 ∧ slot2.ref_count = 0 ∧
          FreeChain s.slab.inner slot2.next rest := by
      rcases freeChain_cases hchain with ⟨heq, -⟩ | ⟨slot2, rest, hL, hg, hr, hc⟩
      · omega
      · exact ⟨slot2, rest, hL, hg, hr, hc⟩
    rw [hget2] at hsome'
    obtain rfl : slot = slot2 := by injection hsome' with hh; exact hh.symm
    subst hL
    obtain ⟨hnotin, hnodup'⟩ := List.nodup_cons.mp hnodup
    refine ⟨rest, ?_, hnodup', ?_, ?_⟩
    · show FreeChain (s.slab.inner.set s.slab.head _) slot.next rest
      exact freeChain_congr (List.length_set _ _ _) hch2
        (fun j hj => List.get?_set_ne _ _ (fun hij => hnotin (hij ▸ hj)))
    · intro p c hgetp hrcp
      by_cases hpi : p = s.slab.head
      · subst hpi
        rw [show ((arrayOps T).setSlot s.slab.inner s.slab.head
            ({ slot with ref_count := 1, item := Clear.clear slot.item })).get? s.slab.head =
          some ({ slot with ref_count := 1, item := Clear.clear slot.item }) from
            arrayOps_get_set_self _ _ slot _ hget2] at hgetp
        obtain rfl : ({ slot with ref_count := 1, item := Clear.clear slot.item } : Slot T) = c := by
          injection hgetp
        exact absurd hrcp (by simp)
      · rw [show ((arrayOps T).setSlot s.slab.inner s.slab.head
            ({ slot with ref_count := 1, item := Clear.clear slot.item })).get? p =
          s.slab.inner.get? p from List.get?_set_ne _ _ (fun hij => hpi hij.symm)] at hgetp
        rcases hcover p c hgetp hrcp with hin | hne
        · rcases List.mem_cons.mp hin with rfl | hin2
          · exact absurd (hget2 ▸ hgetp) (fun hh => by
              obtain rfl : slot = c := by injection hh
              omega)
          · exact Or.inl hin2
        · right
          show c.next ≠ (s.slab.inner.set s.slab.head _).length
          rw [List.length_set]
          exact hne
    · intro c hcmem
      show c.next ≤ (s.slab.inner.set s.slab.head _).length
      rw [List.length_set]
      rcases List.mem_or_eq_of_mem_set hcmem with hold | rfl
      · exact hnbound c hold
      · show slot.next ≤ s.slab.inner.length
        exact hnbound slot (List.get?_mem hget2)
  | @downgrade i hs1 hs2 hsplit =>
    have hmem : (HKind.owned, i) ∈ s.handles := by
      rw [hsplit]
      exact List.mem_append_right _ (List.mem_cons_self _ _)
    have hibound : i < s.slab.inner.length := hbound _ hmem
    obtain ⟨slot, hslot⟩ : ∃ slot, s.slab.inner.get? i = some slot := by
      rw [List.get?_eq_get hibound]
      exact ⟨_, rfl⟩
    have hrcpos : 1 ≤ slot.ref_count := by
      rw [counts _ _ hslot]
      exact countHandles_pos_of_mem hmem
    show CovInv (Slab.drop_ref (arrayOps T) (Slab.clone_ref (arrayOps T) s.slab i) i)
    rw [clone_then_drop_id s.slab i slot hslot hrcpos]
    exact ⟨L, hchain, hnodup, hcover, hnbound⟩
  | @clone i hmem =>
    have hibound : i < s.slab.inner.length := hbound _ hmem
    obtain ⟨slot, hslot⟩ : ∃ slot, s.slab.inner.get? i = some slot := by
      rw [List.get?_eq_get hibound]
      exact ⟨_, rfl⟩
    have hrcpos : 1 ≤ slot.ref_count := by
      rw [counts _ _ hslot]
      exact countHandles_pos_of_mem hmem
    show CovInv (Slab.clone_ref (arrayOps T) s.slab i)
    rw [array_clone_ref_eq s.slab i slot hslot]
    refine ⟨L, ?_, hnodup, ?_, ?_⟩
    · exact freeChain_set_busy hchain i slot hslot (by omega) _
    · intro p c hgetp hrcp
      by_cases hpi : p = i
      · subst hpi
        rw [List.get?_set_eq_of_lt _ hibound] at hgetp
        obtain rfl : ({ slot with ref_count := slot.ref_count + 1 } : Slot T) = c := by
          injection hgetp
        exact absurd hrcp (by simp)
      · rw [List.get?_set_ne _ _ (fun hij => hpi hij.symm)] at hgetp
        rcases hcover p c hgetp hrcp with hin | hne
        · exact Or.inl hin
        · right
          rw [List.length_set]
          exact hne
    · intro c hcmem
      rw [List.length_set]
      rcases List.mem_or_eq_of_mem_set hcmem with hold | rfl
      · exact hnbound c hold
      · show slot.next ≤ s.slab.inner.length
        exact hnbound slot (List.get?_mem hslot)
  | @drop h hs1 hs2 hsplit =>
    have hmem : h ∈ s.handles := by
      rw [hsplit]
      exact List.mem_append_right _ (List.mem_cons_self _ _)
    have hibound : h.2 < s.slab.inner.length := hbound _ hmem
    obtain ⟨slot, hslot⟩ : ∃ slot, s.slab.inner.get? h.2 = some slot := by
      rw [List.get?_eq_get hibound]
      exact ⟨_, rfl⟩
    have hrcpos : 1 ≤ slot.ref_count := by
      rw [counts _ _ hslot]
      exact countHandles_pos_of_mem hmem
    show CovInv (Slab.drop_ref (arrayOps T) s.slab h.2)
    rw [array_drop_ref_eq s.slab h.2 slot hslot]
    by_cases h1 : slot.ref_count = 1
    · rw [if_pos h1]
      have hidx : slot.idx = h.2 := idxs _ _ hslot
      have hnotL : h.2 ∉ L := by
        intro hin
        obtain ⟨sl2, hget2, hrc2⟩ := freeChain_mem_rc hchain _ hin
        rw [hslot] at hget2
        obtain rfl : slot = sl2 := by injection hget2
        omega
      refine ⟨h.2 :: L, ?_, List.nodup_cons.mpr ⟨hnotL, hnodup⟩, ?_, ?_⟩
      · show FreeChain (s.slab.inner.set h.2 _) slot.idx (h.2 :: L)
        rw [hidx]
        refine FreeChain.cons (List.get?_set_eq_of_lt _ hibound) rfl ?_
        exact freeChain_set_busy hchain h.2 slot hslot (by omega) _
      · intro p c hgetp hrcp
        by_cases hpi : p = h.2
        · subst hpi
          left
          exact List.mem_cons_self _ _
        · rw [List.get?_set_ne _ _ (fun hij => hpi hij.symm)] at hgetp
          rcases hcover p c hgetp hrcp with hin | hne
          · exact Or.inl (List.mem_cons_of_mem _ hin)
          · right
            rw [List.length_set]
            exact hne
      · intro c hcmem
        rw [List.length_set]
        rcases List.mem_or_eq_of_mem_set hcmem with hold | rfl
        · exact hnbound c hold
        · show s.slab.head ≤ s.slab.inner.length
          exact freeChain_head_le hchain
    · rw [if_neg h1]
      refine ⟨L, ?_, hnodup, ?_, ?_⟩
      · exact freeChain_set_busy hchain h.2 slot hslot (by omega) _
      · intro p c hgetp hrcp
        by_cases hpi : p = h.2
        · subst hpi
          rw [List.get?_set_eq_of_lt _ hibound] at hgetp
          obtain rfl : ({ slot with ref_count := slot.ref_count - 1 } : Slot T) = c := by
            injection hgetp
          have hrc0 : slot.ref_count = 0 ∨ 2 ≤ slot.ref_count := by omega
          rcases hrc0 with hrc0 | hrc0
          · omega
          · exact absurd hrcp (by dsimp only; omega)
        · rw [List.get?_set_ne _ _ (fun hij => hpi hij.symm)] at hgetp
          rcases hcover p c hgetp hrcp with hin | hne
          · exact Or.inl hin
          · right
            rw [List.length_set]
            exact hne
      · intro c hcmem
        rw [List.length_set]
        rcases List.mem_or_eq_of_mem_set hcmem with hold | rfl
        · exact hnbound c hold
        · show slot.next ≤ s.slab.inner.length
          exact hnbound slot (List.get?_mem hslot)
theorem nextPow2Fuel_pos : ∀ (fuel n : Nat), 1 ≤ nextPow2Fuel fuel n := by
  intro fuel
  induction fuel with
  | zero => intro n; exact le_refl 1
  | succ m ih =>
    intro n
    unfold nextPow2Fuel
    by_cases h : n ≤ 1
    · rw [if_pos h]
    · rw [if_neg h]
      have := ih ((n + 1) / 2)
      omega

/-- A single fresh block of n ≥ 1 slots with head h ≤ n is a valid phase-B
state with no handles, provided the next links below the head avoid n. -/
theorem gbase_single_fresh {T : Type} (newv : T) (n h u : Nat) (hn : 1 ≤ n)
    (hh : h ≤ n) (hoff : ∀ j, j < h → j + 1 ≠ n) :
    GBase (⟨⟨⟨[⟨(List.range n).map (fun i => Slot.new newv i)⟩]⟩, h, u⟩, []⟩ :
      PoolState (SlabList (Slot T))) := by
  right; left
  have hlen : ((List.range n).map (fun i => Slot.new newv (i : Nat))).length = n := by
    rw [List.length_map, List.length_range]
  have hget : ∀ k c,
      ((List.range n).map (fun i => Slot.new newv (i : Nat))).get? k = some c →
      c.idx = k ∧ c.ref_count = 0 ∧ c.next = k + 1 := by
    intro k c hk
    have hklt : k < n := by
      have h2 := (List.get?_eq_some.mp hk).1
      rw [hlen] at h2
      exact h2
    rw [List.get?_map, List.get?_range hklt] at hk
    simp only [Option.map_some'] at hk
    obtain rfl : Slot.new newv k = c := by injection hk
    exact ⟨rfl, rfl, rfl⟩
  refine ⟨⟨_, rfl, ?_⟩, ?_, ?_⟩
  · intro hnil
    rw [hnil] at hlen
    simp at hlen
    omega
  · have hfl : flatPool (⟨⟨⟨[⟨(List.range n).map (fun i => Slot.new newv i)⟩]⟩, h, u⟩, []⟩ :
        PoolState (SlabList (Slot T))) =
      ⟨⟨(List.range n).map (fun i => Slot.new newv i), h, u⟩, []⟩ := by
      unfold flatPool flatSlab
      rw [sb_flat]
    rw [hfl]
    exact finv_fresh _ h u (by rw [hlen]; exact hh) hget
  · have hfs : flatSlab (⟨⟨⟨[⟨(List.range n).map (fun i => Slot.new newv i)⟩]⟩, h, u⟩, []⟩ :
        PoolState (SlabList (Slot T))).slab =
      ⟨(List.range n).map (fun i => Slot.new newv i), h, u⟩ := by
      unfold flatSlab
      rw [sb_flat]
    rw [hfs]
    refine covinv_fresh _ h u (by rw [hlen]; exact hh)
      (fun k c hk => ⟨(hget k c hk).2.1, (hget k c hk).2.2⟩) ?_
    rw [hlen]
    exact hoff

/-- The phase invariant holds at construction for every capacity. -/
theorem gbase_init {T : Type} (settings : Settings) (cap : Nat) (newv : T) :
    GBase (⟨growableMake settings cap newv, []⟩ : PoolState (SlabList (Slot T))) := by
  by_cases hcap : cap > 0
  · have hmk : growableMake settings cap newv =
        ⟨⟨[⟨(List.range (if isPowerOfTwo cap then cap else nextPowerOfTwo cap)).map
          (fun i => Slot.new newv i)⟩]⟩, 0, 0⟩ := by
      simp only [growableMake]
      rw [if_pos hcap]
      rfl
    rw [hmk]
    refine gbase_single_fresh newv _ 0 0 ?_ (by omega) (by omega)
    by_cases hp : isPowerOfTwo cap = true
    · rw [if_pos hp]
      omega
    · rw [if_neg hp]
      exact nextPow2Fuel_pos cap cap
  · have hmk0 : growableMake settings cap newv = ⟨⟨[]⟩, 0, 0⟩ := by
      simp only [growableMake]
      rw [if_neg hcap]
      rfl
    rw [hmk0]
    left
    exact ⟨rfl, rfl, rfl⟩
/-- A list with length profile [t, 2t] is literally two blocks. -/
theorem blocks_of_lens_two {A : Type} (l : SlabList A) (t : Nat)
    (h : l.blocks.map (fun b => b.cells.length) = [t, 2 * t]) :
    ∃ b1 b2, l.blocks = [b1, b2] ∧ b1.cells.length = t ∧ b2.cells.length = 2 * t := by
  have hlen : l.blocks.length = 2 := by
    have h2 := congrArg List.length h
    rw [List.length_map] at h2
    simpa using h2
  obtain ⟨b1, b2, hb⟩ : ∃ b1 b2, l.blocks = [b1, b2] := by
    cases hb : l.blocks with
    | nil => rw [hb] at hlen; simp at hlen
    | cons x xs =>
      cases hxs : xs with
      | nil => rw [hb, hxs] at hlen; simp at hlen
      | cons y ys =>
        cases hys : ys with
        | nil => exact ⟨x, y, rfl⟩
        | cons z zs => rw [hb, hxs, hys] at hlen; simp at hlen
  rw [hb] at h
  simp only [List.map_cons, List.map_nil] at h
  injection h with h1 h2
  injection h2 with h2 h3
  exact ⟨b1, b2, hb, h1, h2⟩

/-- In a two-block list of t and 2t cells (t ≥ 1) the tail capacity is 2t and
the reported capacity 4t. -/
theorem twoblock_caps {A : Type} (b1 b2 : Block A) (t : Nat) (ht : 1 ≤ t)
    (h1 : b1.cells.length = t) (h2 : b2.cells.length = 2 * t) :
    (⟨[b1, b2]⟩ : SlabList A).tail_capacity = 2 * t ∧
    (⟨[b1, b2]⟩ : SlabList A).capacity = 4 * t := by
  have htail : (⟨[b1, b2]⟩ : SlabList A).tail_capacity = 2 * t := by
    unfold SlabList.tail_capacity
    rw [show ([b1, b2] : List (Block A)).getLast? = some b2 by simp]
    exact h2
  refine ⟨htail, ?_⟩
  unfold SlabList.capacity
  rw [htail]
  rw [show ([b1, b2] : List (Block A)).head? = some b1 from rfl]
  dsimp only
  rw [h1]
  rw [if_neg (by omega)]
  omega

/-- In a two-block list of t and 2t cells, every index at most 3t is looked
up successfully. -/
theorem twoblock_lookup {A : Type} (b1 b2 : Block A) (t i : Nat) (ht : 1 ≤ t)
    (h1 : b1.cells.length = t) (h2 : b2.cells.length = 2 * t) (hi : i ≤ 3 * t) :
    ∃ a, (⟨[b1, b2]⟩ : SlabList A).with_idx i = some a := by
  obtain ⟨htail, hcap⟩ := twoblock_caps b1 b2 t ht h1 h2
  rw [with_idx_eq_lookupCoord]
  unfold SlabList.resolve
  rw [htail, hcap]
  rw [if_neg (by omega)]
  dsimp only
  by_cases hgt : i > 2 * t
  · rw [if_pos hgt]
    rw [show ([b1, b2] : List (Block A)).getLast? = some b2 by simp]
    dsimp only
    rw [if_pos (show i - 2 * t < b2.cells.length by rw [h2]; omega)]
    show ∃ a, lookupCoord [b1, b2]
      (some (([b1, b2] : List (Block A)).length - 1, i - 2 * t)) = some a
    unfold lookupCoord
    dsimp only
    rw [show ([b1, b2] : List (Block A)).get? (([b1, b2] : List (Block A)).length - 1) =
      some b2 from rfl]
    dsimp only
    rw [List.get?_eq_get (show i - 2 * t < b2.cells.length by rw [h2]; omega)]
    exact ⟨_, rfl⟩
  · rw [if_neg hgt]
    show ∃ a, lookupCoord [b1, b2]
      (walkLens (([b1, b2] : List (Block A)).map (fun b => b.cells.length)) i) = some a
    rw [lookupCoord_walkLens]
    have hflen : ((([b1, b2] : List (Block A)).map (fun b => b.cells)).flatten).length =
        3 * t := by
      simp [h1, h2]
      omega
    rw [List.get?_eq_get (show i < ((([b1, b2] : List (Block A)).map
      (fun b => b.cells)).flatten).length by rw [hflen]; omega)]
    exact ⟨_, rfl⟩

/-- Phase C is stable under a single-cell write whose value keeps its bounds. -/
theorem gbaseC_write {T : Type} (l : SlabList (Slot T)) (t i : Nat) (a : Slot T)
    (hlens : l.blocks.map (fun b => b.cells.length) = [t, 2 * t])
    (hcells : ∀ b ∈ l.blocks, ∀ c ∈ b.cells, c.next ≤ 3 * t ∧ c.idx < 3 * t)
    (hnext : a.next ≤ 3 * t) (hidx : a.idx < 3 * t) :
    (l.setIdx i a).blocks.map (fun b => b.cells.length) = [t, 2 * t] ∧
    (∀ b ∈ (l.setIdx i a).blocks, ∀ c ∈ b.cells, c.next ≤ 3 * t ∧ c.idx < 3 * t) := by
  refine ⟨by rw [setIdx_lens]; exact hlens, ?_⟩
  intro b' hb' c hc
  rcases setIdx_mem_cases l i a b' c hb' hc with ⟨b0, hb0, hc0⟩ | rfl
  · exact hcells b0 hb0 c hc0
  · exact ⟨hnext, hidx⟩

/-- Phase C is stable under clone_ref. -/
theorem gbaseC_clone {T : Type} (sl : Slab (SlabList (Slot T))) (t i : Nat)
    (hlens : sl.inner.blocks.map (fun b => b.cells.length) = [t, 2 * t])
    (hhead : sl.head ≤ 3 * t)
    (hcells : ∀ b ∈ sl.inner.blocks, ∀ c ∈ b.cells, c.next ≤ 3 * t ∧ c.idx < 3 * t) :
    (Slab.clone_ref (listOps T) sl i).inner.blocks.map (fun b => b.cells.length) = [t, 2 * t] ∧
    (Slab.clone_ref (listOps T) sl i).head ≤ 3 * t ∧
    (∀ b ∈ (Slab.clone_ref (listOps T) sl i).inner.blocks, ∀ c ∈ b.cells,
      c.next ≤ 3 * t ∧ c.idx < 3 * t) := by
  unfold Slab.clone_ref
  cases hget : (listOps T).getSlot sl.inner i with
  | none => exact ⟨hlens, hhead, hcells⟩
  | some slot =>
    dsimp only
    have hslot : sl.inner.with_idx i = some slot := hget
    obtain ⟨k, o, b, hres, hbk, hco⟩ := with_idx_some_elim _ _ _ hslot
    obtain ⟨hn, hx⟩ := hcells b (List.get?_mem hbk) slot (List.get?_mem hco)
    obtain ⟨g1, g2⟩ := gbaseC_write sl.inner t i
      ({ slot with ref_count := slot.ref_count + 1 }) hlens hcells hn hx
    exact ⟨g1, hhead, g2⟩

/-- Phase C is stable under drop_ref. -/
theorem gbaseC_drop {T : Type} (sl : Slab (SlabList (Slot T))) (t i : Nat)
    (hlens : sl.inner.blocks.map (fun b => b.cells.length) = [t, 2 * t])
    (hhead : sl.head ≤ 3 * t)
    (hcells : ∀ b ∈ sl.inner.blocks, ∀ c ∈ b.cells, c.next ≤ 3 * t ∧ c.idx < 3 * t) :
    (Slab.drop_ref (listOps T) sl i).inner.blocks.map (fun b => b.cells.length) = [t, 2 * t] ∧
    (Slab.drop_ref (listOps T) sl i).head ≤ 3 * t ∧
    (∀ b ∈ (Slab.drop_ref (listOps T) sl i).inner.blocks, ∀ c ∈ b.cells,
      c.next ≤ 3 * t ∧ c.idx < 3 * t) := by
  unfold Slab.drop_ref
  cases hget : (listOps T).getSlot sl.inner i with
  | none => exact ⟨hlens, hhead, hcells⟩
  | some slot =>
    dsimp only
    have hslot : sl.inner.with_idx i = some slot := hget
    obtain ⟨k, o, b, hres, hbk, hco⟩ := with_idx_some_elim _ _ _ hslot
    obtain ⟨hn, hx⟩ := hcells b (List.get?_mem hbk) slot (List.get?_mem hco)
    by_cases hrc : slot.ref_count = 1
    · rw [if_pos hrc]
      obtain ⟨g1, g2⟩ := gbaseC_write sl.inner t i
        ({ slot with ref_count := 0, next := sl.head }) hlens hcells hhead hx
      exact ⟨g1, show slot.idx ≤ 3 * t by omega, g2⟩
    · rw [if_neg hrc]
      obtain ⟨g1, g2⟩ := gbaseC_write sl.inner t i
        ({ slot with ref_count := slot.ref_count - 1 }) hlens hcells hn hx
      exact ⟨g1, hhead, g2⟩
/-- The flat view of a single-block pool state. -/
theorem flatPool_sb {T : Type} (cells : List (Slot T)) (h u : Nat)
    (hs : List (HKind × Nat)) :
    flatPool (⟨⟨⟨[⟨cells⟩]⟩, h, u⟩, hs⟩ : PoolState (SlabList (Slot T))) =
      ⟨⟨cells, h, u⟩, hs⟩ := by
  unfold flatPool flatSlab
  rw [show (⟨⟨⟨[⟨cells⟩]⟩, h, u⟩, hs⟩ :
    PoolState (SlabList (Slot T))).slab.inner.flatCells = cells from sb_flat cells]

/-- The flat view of a single-block slab. -/
theorem flatSlab_sb {T : Type} (cells : List (Slot T)) (h u : Nat) :
    flatSlab (⟨⟨[⟨cells⟩]⟩, h, u⟩ : Slab (SlabList (Slot T))) = ⟨cells, h, u⟩ := by
  unfold flatSlab
  rw [show (⟨⟨[⟨cells⟩]⟩, h, u⟩ :
    Slab (SlabList (Slot T))).inner.flatCells = cells from sb_flat cells]

/-- The phase invariant is preserved by every growable-pool operation. -/
theorem gbase_step {T : Type} [Clear T] {newv : T}
    {s s' : PoolState (SlabList (Slot T))}
    (hb : GBase s) (hstep : GStep newv s s') : GBase s' := by
  obtain ⟨⟨⟨blocks⟩, hd, us⟩, hs⟩ := s
  rcases hb with ⟨hnil, hhead, hhs⟩ | ⟨⟨cells, hblocks, hcne⟩, hfinv, hcov⟩ |
    ⟨t, ht, hlens, hhead, hcells⟩
  · -- phase A: the unallocated capacity-0 pool
    have hnil' : blocks = [] := hnil
    have hhead' : hd = 0 := hhead
    have hhs' : hs = [] := hhs
    subst hnil'
    subst hhead'
    subst hhs'
    cases hstep with
    | @checkout i slab' slot hok hslot =>
      exfalso
      have hcap0 : Slab.try_checkout (listOps T)
          (⟨⟨[]⟩, 0, us⟩ : Slab (SlabList (Slot T))) = .error .AtCapacity :=
        try_checkout_atCapacity (listOps T) _ (Nat.zero_le _)
      rw [hcap0] at hok
      exact absurd hok (by simp)
    | @grow hcap =>
      have hgrow : Inner.grow (⟨⟨[]⟩, 0, us⟩ : Slab (SlabList (Slot T))) newv =
          ⟨⟨[⟨(List.range 8).map (fun j => Slot.new newv (0 + j))⟩]⟩, 1, us⟩ := rfl
      show GBase ⟨Inner.grow (⟨⟨[]⟩, 0, us⟩ : Slab (SlabList (Slot T))) newv, []⟩
      rw [hgrow]
      have hc : ((List.range 8).map (fun j => Slot.new newv (0 + j))) =
          (List.range 8).map (fun i => Slot.new newv i) := by
        simp
      rw [hc]
      exact gbase_single_fresh newv 8 1 us (by omega) (by omega)
        (by intro j hj; omega)
    | @downgrade i hs1 hs2 hsplit =>
      exfalso
      have hlen := congrArg List.length hsplit
      rw [List.length_append, List.length_cons] at hlen
      simp only [List.length_nil] at hlen
      omega
    | @clone i hmem =>
      exact absurd hmem (by simp)
    | @drop h hs1 hs2 hsplit =>
      exfalso
      have hlen := congrArg List.length hsplit
      rw [List.length_append, List.length_cons] at hlen
      simp only [List.length_nil] at hlen
      omega
  · -- phase B: a single block
    have hblocks' : blocks = [⟨cells⟩] := hblocks
    subst hblocks'
    have hfp : flatPool (⟨⟨⟨[⟨cells⟩]⟩, hd, us⟩, hs⟩ : PoolState (SlabList (Slot T))) =
        ⟨⟨cells, hd, us⟩, hs⟩ := by
      unfold flatPool flatSlab
      rw [show (⟨⟨⟨[⟨cells⟩]⟩, hd, us⟩, hs⟩ :
        PoolState (SlabList (Slot T))).slab.inner.flatCells = cells from sb_flat cells]
    have hfs : flatSlab (⟨⟨⟨[⟨cells⟩]⟩, hd, us⟩, hs⟩ :
        PoolState (SlabList (Slot T))).slab = ⟨cells, hd, us⟩ := by
      unfold flatSlab
      rw [show (⟨⟨⟨[⟨cells⟩]⟩, hd, us⟩, hs⟩ :
        PoolState (SlabList (Slot T))).slab.inner.flatCells = cells from sb_flat cells]
    rw [hfp] at hfinv
    rw [hfs] at hcov
    cases hstep with
    | @checkout i slab' slot hok hslot =>
      obtain ⟨rfl, hlt, slot2, hsome, hrc, rfl⟩ := (try_checkout_ok_iff _ _ _ _).mp hok
      have hsome' : cells.get? i = some slot2 := by
        rw [← sb_with_idx]
        exact hsome
      have hslot' : cells.get? i = some slot := by
        rw [← sb_with_idx]
        exact hslot
      obtain rfl : slot = slot2 := by rw [hslot'] at hsome'; injection hsome'
      have hlt' : i < cells.length := by
        have hcl : i < (⟨[⟨cells⟩]⟩ : SlabList (Slot T)).capacity := hlt
        rw [sb_capacity] at hcl
        exact hcl
      have hidx : slot.idx = i := hfinv.idxs i slot hslot'
      have hfok : Slab.try_checkout (arrayOps T) (⟨cells, i, us⟩ : Slab (ArrayStore T)) =
          .ok (i, ⟨cells.set i ({ slot with ref_count := 1, item := Clear.clear slot.item }), slot.next, us + 1⟩) :=
        (try_checkout_ok_iff (arrayOps T) ⟨cells, i, us⟩ i _).mpr
          ⟨rfl, hlt', slot, hslot', hrc, rfl⟩
      have hstepF : FStep (⟨⟨cells, i, us⟩, hs⟩ : PoolState (ArrayStore T))
          ⟨⟨cells.set i ({ slot with ref_count := 1, item := Clear.clear slot.item }), slot.next, us + 1⟩, (HKind.owned, i) :: hs⟩ :=
        FStep.checkout hfok
      have hw : (listOps T).setSlot (⟨[⟨cells⟩]⟩ : SlabList (Slot T)) i
          ({ slot with ref_count := 1, item := Clear.clear slot.item }) =
          ⟨[⟨cells.set i ({ slot with ref_count := 1, item := Clear.clear slot.item })⟩]⟩ :=
        sb_setIdx cells i _
      right; left
      refine ⟨⟨cells.set i ({ slot with ref_count := 1, item := Clear.clear slot.item }), ?_, ?_⟩, ?_, ?_⟩
      · show ((listOps T).setSlot (⟨[⟨cells⟩]⟩ : SlabList (Slot T)) i _).blocks = _
        rw [hw]
      · intro hnl
        have hln := congrArg List.length hnl
        rw [List.length_set] at hln
        exact hcne (List.length_eq_zero.mp (by simpa using hln))
      · have hfp2 : flatPool (⟨⟨(listOps T).setSlot (⟨[⟨cells⟩]⟩ : SlabList (Slot T)) i
            ({ slot with ref_count := 1, item := Clear.clear slot.item }),
            slot.next, us + 1⟩, (HKind.owned, slot.idx) :: hs⟩ :
              PoolState (SlabList (Slot T))) =
            ⟨⟨cells.set i ({ slot with ref_count := 1, item := Clear.clear slot.item }), slot.next, us + 1⟩, (HKind.owned, i) :: hs⟩ := by
          rw [hw, hidx]
          exact flatPool_sb _ _ _ _
        rw [hfp2]
        exact finv_step hfinv hstepF
      · have hfs2 : flatSlab ((⟨⟨(listOps T).setSlot (⟨[⟨cells⟩]⟩ : SlabList (Slot T)) i
            ({ slot with ref_count := 1, item := Clear.clear slot.item }),
            slot.next, us + 1⟩, (HKind.owned, slot.idx) :: hs⟩ :
              PoolState (SlabList (Slot T))).slab) =
            ⟨cells.set i ({ slot with ref_count := 1, item := Clear.clear slot.item }), slot.next, us + 1⟩ := by
          rw [hw]
          exact flatSlab_sb _ _ _
        rw [hfs2]
        exact cov_step hfinv hcov hstepF
    | @grow hcap =>
      have hgeL : hd ≥ cells.length := by
        rcases try_checkout_atCapacity_elim _ _ hcap with hge | hnone
        · have h2 : hd ≥ (⟨[⟨cells⟩]⟩ : SlabList (Slot T)).capacity := hge
          rw [sb_capacity] at h2
          exact h2
        · have h2 : (⟨[⟨cells⟩]⟩ : SlabList (Slot T)).with_idx hd = none := hnone
          rw [sb_with_idx] at h2
          exact List.get?_eq_none.mp h2
      have hleL : hd ≤ cells.length := by
        obtain ⟨L, hchain, -, -, -⟩ := hcov
        exact freeChain_head_le hchain
      have hhd : hd = cells.length := le_antisymm hleL hgeL
      have htpos : 1 ≤ cells.length :=
        Nat.pos_of_ne_zero (fun h0 => hcne (List.length_eq_zero.mp h0))
      have hext : Slab.extend_with (⟨⟨[⟨cells⟩]⟩, hd, us⟩ : Slab (SlabList (Slot T))) newv =
          ⟨⟨[⟨cells⟩, ⟨(List.range (cells.length * 2)).map
            (fun j => Slot.new newv (cells.length + j))⟩]⟩, hd + 1, us⟩ := by
        simp only [Slab.extend_with, SlabList.extend_with]
        rw [sb_capacity, sb_tail_capacity]
        rfl
      right; right
      refine ⟨cells.length, htpos, ?_, ?_, ?_⟩
      · show (Slab.extend_with (⟨⟨[⟨cells⟩]⟩, hd, us⟩ :
          Slab (SlabList (Slot T))) newv).inner.blocks.map (fun b => b.cells.length) = _
        rw [hext]
        simp only [List.map_cons, List.map_nil, List.length_map, List.length_range]
        rw [Nat.mul_comm]
      · show (Slab.extend_with (⟨⟨[⟨cells⟩]⟩, hd, us⟩ :
          Slab (SlabList (Slot T))) newv).head ≤ 3 * cells.length
        rw [hext]
        show hd + 1 ≤ 3 * cells.length
        omega
      · show ∀ b ∈ (Slab.extend_with (⟨⟨[⟨cells⟩]⟩, hd, us⟩ :
          Slab (SlabList (Slot T))) newv).inner.blocks, ∀ c ∈ b.cells,
            c.next ≤ 3 * cells.length ∧ c.idx < 3 * cells.length
        intro b hb c hc
        rw [hext] at hb
        rcases List.mem_cons.mp hb with rfl | hb2
        · obtain ⟨p, hp⟩ := List.mem_iff_get?.mp hc
          have hip : c.idx = p := hfinv.idxs p c hp
          have hplen : p < cells.length := (List.get?_eq_some.mp hp).1
          obtain ⟨-, -, -, -, hnb⟩ := hcov
          have hn : c.next ≤ cells.length := hnb c hc
          constructor
          · omega
          · omega
        · have hb3 : b = ⟨(List.range (cells.length * 2)).map
              (fun j => Slot.new newv (cells.length + j))⟩ := List.mem_singleton.mp hb2
          rw [hb3] at hc
          obtain ⟨j, hj, rfl⟩ := List.mem_map.mp hc
          have hjlt : j < cells.length * 2 := List.mem_range.mp hj
          constructor
          · show cells.length + j + 1 ≤ 3 * cells.length
            omega
          · show cells.length + j < 3 * cells.length
            omega
    | @downgrade i hs1 hs2 hsplit =>
      obtain ⟨cellsC, hlistC, harrC, hlenC⟩ := sb_clone_comm cells hd us i
      obtain ⟨cells2, h2, u2, hlistD, harrD, hlen2⟩ := sb_drop_comm cellsC hd us i
      have hstepF : FStep (⟨⟨cells, hd, us⟩, hs⟩ : PoolState (ArrayStore T))
          ⟨⟨cells2, h2, u2⟩, hs1 ++ (HKind.shared, i) :: hs2⟩ := by
        have h0 := @FStep.downgrade T _ ⟨⟨cells, hd, us⟩, hs⟩ i hs1 hs2 hsplit
        rw [harrC, harrD] at h0
        exact h0
      right; left
      have hlist2 : Slab.drop_ref (listOps T)
          (Slab.clone_ref (listOps T) (⟨⟨[⟨cells⟩]⟩, hd, us⟩ :
            Slab (SlabList (Slot T))) i) i = ⟨⟨[⟨cells2⟩]⟩, h2, u2⟩ := by
        rw [hlistC, hlistD]
      refine ⟨⟨cells2, ?_, ?_⟩, ?_, ?_⟩
      · rw [hlist2]
      · intro hnl
        have hln := congrArg List.length hnl
        rw [hlen2, hlenC] at hln
        exact hcne (List.length_eq_zero.mp (by simpa using hln))
      · have hfp2 : flatPool (⟨Slab.drop_ref (listOps T)
            (Slab.clone_ref (listOps T) (⟨⟨[⟨cells⟩]⟩, hd, us⟩ :
              Slab (SlabList (Slot T))) i) i, hs1 ++ (HKind.shared, i) :: hs2⟩ :
                PoolState (SlabList (Slot T))) =
            ⟨⟨cells2, h2, u2⟩, hs1 ++ (HKind.shared, i) :: hs2⟩ := by
          unfold flatPool flatSlab
          rw [hlist2]
          rw [show (⟨⟨[⟨cells2⟩]⟩, h2, u2⟩ :
            Slab (SlabList (Slot T))).inner.flatCells = cells2 from sb_flat cells2]
        rw [hfp2]
        exact finv_step hfinv hstepF
      · have hfs2 : flatSlab ((⟨Slab.drop_ref (listOps T)
            (Slab.clone_ref (listOps T) (⟨⟨[⟨cells⟩]⟩, hd, us⟩ :
              Slab (SlabList (Slot T))) i) i, hs1 ++ (HKind.shared, i) :: hs2⟩ :
                PoolState (SlabList (Slot T))).slab) = ⟨cells2, h2, u2⟩ := by
          unfold flatSlab
          rw [hlist2]
          rw [show (⟨⟨[⟨cells2⟩]⟩, h2, u2⟩ :
            Slab (SlabList (Slot T))).inner.flatCells = cells2 from sb_flat cells2]
        rw [hfs2]
        exact cov_step hfinv hcov hstepF
    | @clone i hmem =>
      obtain ⟨cellsC, hlistC, harrC, hlenC⟩ := sb_clone_comm cells hd us i
      have hstepF : FStep (⟨⟨cells, hd, us⟩, hs⟩ : PoolState (ArrayStore T))
          ⟨⟨cellsC, hd, us⟩, (HKind.shared, i) :: hs⟩ := by
        have h0 := @FStep.clone T _ ⟨⟨cells, hd, us⟩, hs⟩ i hmem
        rw [harrC] at h0
        exact h0
      right; left
      refine ⟨⟨cellsC, ?_, ?_⟩, ?_, ?_⟩
      · rw [hlistC]
      · intro hnl
        have hln := congrArg List.length hnl
        rw [hlenC] at hln
        exact hcne (List.length_eq_zero.mp (by simpa using hln))
      · have hfp2 : flatPool (⟨Slab.clone_ref (listOps T)
            (⟨⟨[⟨cells⟩]⟩, hd, us⟩ : Slab (SlabList (Slot T))) i,
              (HKind.shared, i) :: hs⟩ : PoolState (SlabList (Slot T))) =
            ⟨⟨cellsC, hd, us⟩, (HKind.shared, i) :: hs⟩ := by
          unfold flatPool flatSlab
          rw [hlistC]
          rw [show (⟨⟨[⟨cellsC⟩]⟩, hd, us⟩ :
            Slab (SlabList (Slot T))).inner.flatCells = cellsC from sb_flat cellsC]
        rw [hfp2]
        exact finv_step hfinv hstepF
      · have hfs2 : flatSlab ((⟨Slab.clone_ref (listOps T)
            (⟨⟨[⟨cells⟩]⟩, hd, us⟩ : Slab (SlabList (Slot T))) i,
              (HKind.shared, i) :: hs⟩ : PoolState (SlabList (Slot T))).slab) =
            ⟨cellsC, hd, us⟩ := by
          unfold flatSlab
          rw [hlistC]
          rw [show (⟨⟨[⟨cellsC⟩]⟩, hd, us⟩ :
            Slab (SlabList (Slot T))).inner.flatCells = cellsC from sb_flat cellsC]
        rw [hfs2]
        exact cov_step hfinv hcov hstepF
    | @drop h hs1 hs2 hsplit =>
      obtain ⟨cells2, h2, u2, hlistD, harrD, hlen2⟩ := sb_drop_comm cells hd us h.2
      have hstepF : FStep (⟨⟨cells, hd, us⟩, hs⟩ : PoolState (ArrayStore T))
          ⟨⟨cells2, h2, u2⟩, hs1 ++ hs2⟩ := by
        have h0 := @FStep.drop T _ ⟨⟨cells, hd, us⟩, hs⟩ h hs1 hs2 hsplit
        rw [harrD] at h0
        exact h0
      right; left
      refine ⟨⟨cells2, ?_, ?_⟩, ?_, ?_⟩
      · rw [hlistD]
      · intro hnl
        have hln := congrArg List.length hnl
        rw [hlen2] at hln
        exact hcne (List.length_eq_zero.mp (by simpa using hln))
      · have hfp2 : flatPool (⟨Slab.drop_ref (listOps T)
            (⟨⟨[⟨cells⟩]⟩, hd, us⟩ : Slab (SlabList (Slot T))) h.2, hs1 ++ hs2⟩ :
              PoolState (SlabList (Slot T))) = ⟨⟨cells2, h2, u2⟩, hs1 ++ hs2⟩ := by
          unfold flatPool flatSlab
          rw [hlistD]
          rw [show (⟨⟨[⟨cells2⟩]⟩, h2, u2⟩ :
            Slab (SlabList (Slot T))).inner.flatCells = cells2 from sb_flat cells2]
        rw [hfp2]
        exact finv_step hfinv hstepF
      · have hfs2 : flatSlab ((⟨Slab.drop_ref (listOps T)
            (⟨⟨[⟨cells⟩]⟩, hd, us⟩ : Slab (SlabList (Slot T))) h.2, hs1 ++ hs2⟩ :
              PoolState (SlabList (Slot T))).slab) = ⟨cells2, h2, u2⟩ := by
          unfold flatSlab
          rw [hlistD]
          rw [show (⟨⟨[⟨cells2⟩]⟩, h2, u2⟩ :
            Slab (SlabList (Slot T))).inner.flatCells = cells2 from sb_flat cells2]
        rw [hfs2]
        exact cov_step hfinv hcov hstepF
  · -- phase C: two blocks, no further growth
    obtain ⟨b1, b2, hb12, hl1, hl2⟩ := blocks_of_lens_two ⟨blocks⟩ t hlens
    have hb12' : blocks = [b1, b2] := hb12
    subst hb12'
    cases hstep with
    | @checkout i slab' slot hok hslot =>
      obtain ⟨rfl, hlt, slot2, hsome, hrc, rfl⟩ := (try_checkout_ok_iff _ _ _ _).mp hok
      have hsome' : (⟨[b1, b2]⟩ : SlabList (Slot T)).with_idx i = some slot2 := hsome
      obtain ⟨k, o, b, hres, hbk, hco⟩ := with_idx_some_elim _ _ _ hsome'
      obtain ⟨hn2, hx2⟩ := hcells b (List.get?_mem hbk) slot2 (List.get?_mem hco)
      obtain ⟨g1, g2⟩ := gbaseC_write (⟨[b1, b2]⟩ : SlabList (Slot T)) t i
        ({ slot2 with ref_count := 1, item := Clear.clear slot2.item }) hlens hcells hn2 hx2
      right; right
      exact ⟨t, ht, g1, hn2, g2⟩
    | @grow hcap =>
      exfalso
      rcases try_checkout_atCapacity_elim _ _ hcap with hge | hnone
      · have hcap4 : (⟨[b1, b2]⟩ : SlabList (Slot T)).capacity = 4 * t :=
          (twoblock_caps b1 b2 t ht hl1 hl2).2
        have hge2 : hd ≥ (⟨[b1, b2]⟩ : SlabList (Slot T)).capacity := hge
        rw [hcap4] at hge2
        have hhd3 : hd ≤ 3 * t := hhead
        omega
      · obtain ⟨a, ha⟩ := twoblock_lookup b1 b2 t hd ht hl1 hl2 hhead
        have hnone2 : (⟨[b1, b2]⟩ : SlabList (Slot T)).with_idx hd = none := hnone
        rw [ha] at hnone2
        exact absurd hnone2 (by simp)
    | @downgrade i hs1 hs2 hsplit =>
      obtain ⟨g1, g2, g3⟩ := gbaseC_clone (⟨⟨[b1, b2]⟩, hd, us⟩ :
        Slab (SlabList (Slot T))) t i hlens hhead hcells
      obtain ⟨f1, f2, f3⟩ := gbaseC_drop (Slab.clone_ref (listOps T)
        (⟨⟨[b1, b2]⟩, hd, us⟩ : Slab (SlabList (Slot T))) i) t i g1 g2 g3
      right; right
      exact ⟨t, ht, f1, f2, f3⟩
    | @clone i hmem =>
      obtain ⟨g1, g2, g3⟩ := gbaseC_clone (⟨⟨[b1, b2]⟩, hd, us⟩ :
        Slab (SlabList (Slot T))) t i hlens hhead hcells
      right; right
      exact ⟨t, ht, g1, g2, g3⟩
    | @drop h hs1 hs2 hsplit =>
      obtain ⟨g1, g2, g3⟩ := gbaseC_drop (⟨⟨[b1, b2]⟩, hd, us⟩ :
        Slab (SlabList (Slot T))) t h.2 hlens hhead hcells
      right; right
      exact ⟨t, ht, g1, g2, g3⟩

/-- The phase invariant holds in every reachable growable-pool state. -/
theorem gbase_reach {T : Type} [Clear T] {newv : T} {settings : Settings} {cap : Nat}
    {s : PoolState (SlabList (Slot T))}
    (h : GReach newv ⟨growableMake settings cap newv, []⟩ s) : GBase s := by
  induction h with
  | init => exact gbase_init settings cap newv
  | step _ hstep ih => exact gbase_step ih hstep
/-- The stranded flat position lies strictly below the actual slot total. -/
theorem strand_z_lt_total {T : Type} {z K : Nat} {sl : Slab (SlabList (Slot T))}
    (inv : GStrand z K sl) : z < sl.inner.slotTotal := by
  obtain ⟨bK, hbK⟩ : ∃ bK, sl.inner.blocks.get? K = some bK := by
    rw [List.get?_eq_get inv.kbound]
    exact ⟨_, rfl⟩
  have hlenK : 1 ≤ bK.cells.length := by
    have hne := inv.cellsnn bK (List.get?_mem hbK)
    exact Nat.pos_of_ne_zero (fun h0 => hne (List.length_eq_zero.mp h0))
  have hsplit : sl.inner.slotTotal =
      ((sl.inner.blocks.map (fun b => b.cells.length)).take K).sum +
      ((sl.inner.blocks.map (fun b => b.cells.length)).drop K).sum := by
    unfold SlabList.slotTotal
    rw [← List.sum_append, List.take_append_drop]
  have hKlen : K < (sl.inner.blocks.map (fun b => b.cells.length)).length := by
    rw [List.length_map]
    exact inv.kbound
  have hdropK : ((sl.inner.blocks.map (fun b => b.cells.length)).drop K).sum ≥
      bK.cells.length := by
    rw [List.drop_eq_get_cons hKlen, List.sum_cons]
    have hgetm : (sl.inner.blocks.map (fun b => b.cells.length)).get? K =
        some bK.cells.length := by
      rw [List.get?_map, hbK]
      rfl
    have h2 := List.get?_eq_get hKlen
    rw [hgetm] at h2
    have h3 : bK.cells.length =
        (sl.inner.blocks.map (fun b => b.cells.length)).get ⟨K, hKlen⟩ := by
      injection h2
    omega
  have hz := inv.zflat
  omega

/-- A cell looked up at any index other than z never carries index z. -/
theorem strand_cell_idx_ne {T : Type} {z K : Nat} {sl : Slab (SlabList (Slot T))}
    (inv : GStrand z K sl) {i : Nat} (hi : i ≠ z) {slot : Slot T}
    (hget : sl.inner.with_idx i = some slot) : slot.idx ≠ z := by
  intro h0
  obtain ⟨k, o, b, hres, hb, hc⟩ := with_idx_some_elim _ _ _ hget
  obtain ⟨hk, ho⟩ := inv.idxz k b hb o slot hc h0
  rw [hk, ho] at hres
  exact hi (resolve_coord_flat sl.inner i K z hres inv.zflat)

/-- Writing a cell at an index other than z, preserving its idx field and the
conditional next-avoidance, preserves the slab stranding invariant for any
new head avoiding z. -/
theorem strand_write {T : Type} {z K : Nat} {sl : Slab (SlabList (Slot T))}
    (inv : GStrand z K sl) (i : Nat) (hi : i ≠ z) (slot a : Slot T)
    (hget : sl.inner.with_idx i = some slot)
    (hrcnext : a.ref_count = 0 → a.next ≠ z)
    (hidx : a.idx = slot.idx) (h' u' : Nat) (hh : h' ≠ z) :
    GStrand z K ⟨sl.inner.setIdx i a, h', u'⟩ := by
  obtain ⟨k, o, b, hres, hb, hc⟩ := with_idx_some_elim _ _ _ hget
  have hlensEq := setIdx_lens sl.inner i a
  have hcoord : ¬ (k = K ∧ o = 0) := by
    rintro ⟨rfl, rfl⟩
    exact hi (resolve_coord_flat sl.inner i k z hres inv.zflat)
  have hleneq : (sl.inner.setIdx i a).blocks.length = sl.inner.blocks.length := by
    have h2 := congrArg List.length hlensEq
    rw [List.length_map, List.length_map] at h2
    exact h2
  refine ⟨?_, ?_, ?_, ?_, ?_, ?_, ?_, hh, ?_, ?_⟩
  · intro hnilx
    have hmapnil : (sl.inner.setIdx i a).blocks.map (fun b => b.cells.length) = [] := by
      rw [hnilx]; rfl
    rw [hlensEq] at hmapnil
    exact inv.nonnil (List.map_eq_nil_iff.mp hmapnil)
  · intro b' hb' hcellsnil
    obtain ⟨n, hn⟩ := List.mem_iff_get?.mp hb'
    have h1 : ((sl.inner.setIdx i a).blocks.map (fun b => b.cells.length)).get? n =
        some b'.cells.length := by
      rw [List.get?_map, hn]; rfl
    rw [hlensEq, List.get?_map] at h1
    cases hbn : sl.inner.blocks.get? n with
    | none => rw [hbn] at h1; cases h1
    | some bold =>
      rw [hbn] at h1
      simp only [Option.map_some'] at h1
      have hlen : bold.cells.length = b'.cells.length := by injection h1
      have hne : bold.cells ≠ [] := inv.cellsnn bold (List.get?_mem hbn)
      rw [hcellsnil] at hlen
      exact hne (List.length_eq_zero.mp (by simpa using hlen))
  · rw [hleneq]
    exact inv.kbound
  · rw [hlensEq]
    exact inv.zflat
  · intro bK hbK c0 hc0
    rcases setIdx_get_cases sl.inner i a k o hres K 0 bK c0 hbK hc0 with
      ⟨hk0, ho0, rfl⟩ | ⟨bo, hbo, hco⟩
    · exact absurd ⟨hk0.symm, ho0.symm⟩ hcoord
    · exact inv.zcell bo hbo c0 hco
  · intro k' b' hb' j c hc' hidx0
    rcases setIdx_get_cases sl.inner i a k o hres k' j b' c hb' hc' with
      ⟨hk', hj', hca⟩ | ⟨bo, hbo, hco⟩
    · have hsz : slot.idx = z := by rw [← hidx, ← hca]; exact hidx0
      exact absurd (inv.idxz k b hb o slot hc hsz) hcoord
    · exact inv.idxz k' bo hbo j c hco hidx0
  · intro b' hb' c hc' hrc0
    rcases setIdx_mem_cases sl.inner i a b' c hb' hc' with ⟨bo, hbo, hco⟩ | rfl
    · exact inv.rcnext bo hbo c hco hrc0
    · exact hrcnext hrc0
  · rw [show (⟨sl.inner.setIdx i a, h', u'⟩ :
      Slab (SlabList (Slot T))).inner.capacity = sl.inner.capacity from
        setIdx_capacity sl.inner i a]
    exact inv.zcap
  · rw [show (⟨sl.inner.setIdx i a, h', u'⟩ :
      Slab (SlabList (Slot T))).inner.tail_capacity = sl.inner.tail_capacity from
        setIdx_tail_capacity sl.inner i a]
    exact inv.zwalk

theorem strand_clone {T : Type} {z K : Nat} {sl : Slab (SlabList (Slot T))}
    (inv : GStrand z K sl) (i : Nat) (hi : i ≠ z) :
    GStrand z K (Slab.clone_ref (listOps T) sl i) := by
  cases hget : sl.inner.with_idx i with
  | none =>
    have hid : Slab.clone_ref (listOps T) sl i = sl := by
      unfold Slab.clone_ref
      rw [listOps_getSlot, hget]
    rw [hid]
    exact inv
  | some slot =>
    have heq : Slab.clone_ref (listOps T) sl i =
        ⟨sl.inner.setIdx i ({ slot with ref_count := slot.ref_count + 1 }),
         sl.head, sl.used⟩ := by
      unfold Slab.clone_ref
      rw [listOps_getSlot, hget]
      rfl
    rw [heq]
    exact strand_write inv i hi slot ({ slot with ref_count := slot.ref_count + 1 })
      hget (fun h0 => absurd h0 (by simp)) rfl sl.head sl.used inv.headz

theorem strand_drop {T : Type} {z K : Nat} {sl : Slab (SlabList (Slot T))}
    (inv : GStrand z K sl) (i : Nat) (hi : i ≠ z) :
    GStrand z K (Slab.drop_ref (listOps T) sl i) := by
  cases hget : sl.inner.with_idx i with
  | none =>
    have hid : Slab.drop_ref (listOps T) sl i = sl := by
      unfold Slab.drop_ref
      rw [listOps_getSlot, hget]
    rw [hid]
    exact inv
  | some slot =>
    by_cases hone : slot.ref_count = 1
    · have heq : Slab.drop_ref (listOps T) sl i =
          ⟨sl.inner.setIdx i ({ slot with ref_count := 0, next := sl.head }),
           slot.idx, sl.used - 1⟩ := by
        unfold Slab.drop_ref
        rw [listOps_getSlot, hget]
        dsimp only
        rw [if_pos hone]
        rfl
      rw [heq]
      exact strand_write inv i hi slot ({ slot with ref_count := 0, next := sl.head })
        hget (fun _ => inv.headz) rfl slot.idx (sl.used - 1)
        (strand_cell_idx_ne inv hi hget)
    · have heq : Slab.drop_ref (listOps T) sl i =
          ⟨sl.inner.setIdx i ({ slot with ref_count := slot.ref_count - 1 }),
           sl.head, sl.used⟩ := by
        unfold Slab.drop_ref
        rw [listOps_getSlot, hget]
        dsimp only
        rw [if_neg hone]
        rfl
      rw [heq]
      refine strand_write inv i hi slot ({ slot with ref_count := slot.ref_count - 1 })
        hget ?_ rfl sl.head sl.used inv.headz
      intro h0
      have hrc0 : slot.ref_count = 0 := by
        have h1 : slot.ref_count - 1 = 0 := h0
        omega
      obtain ⟨k, o, b, hres, hb, hc⟩ := with_idx_some_elim _ _ _ hget
      exact inv.rcnext b (List.get?_mem hb) slot (List.get?_mem hc) hrc0

/-- A guarded extension (performed only at AtCapacity) preserves the
stranding invariant. -/
theorem strand_grow {T : Type} [Clear T] {z K : Nat} {sl : Slab (SlabList (Slot T))}
    (inv : GStrand z K sl) (newv : T)
    (hcap : Slab.try_checkout (listOps T) sl = .error .AtCapacity) :
    GStrand z K (Slab.extend_with sl newv) := by
  have htc : 1 ≤ sl.inner.tail_capacity := by
    cases hl : sl.inner.blocks.getLast? with
    | none =>
      exfalso
      apply inv.nonnil
      cases hb : sl.inner.blocks with
      | nil => rfl
      | cons x xs =>
        rw [hb] at hl
        exact absurd hl (by simp)
    | some blast =>
      have hmem : blast ∈ sl.inner.blocks := List.mem_of_mem_getLast? hl
      have hbne := inv.cellsnn blast hmem
      unfold SlabList.tail_capacity
      rw [hl]
      cases hc : blast.cells with
      | nil => exact absurd hc hbne
      | cons c cs => dsimp only; rw [hc]; simp
  have hheadz : sl.head + 1 ≠ z := by
    intro hz1
    rcases try_checkout_atCapacity_elim _ _ hcap with hge | hnone
    · have h2 : sl.head ≥ sl.inner.capacity := hge
      have h3 := inv.zcap
      omega
    · have h2 : sl.inner.with_idx sl.head = none := hnone
      rw [with_idx_flat sl.inner sl.head (by have := inv.zwalk; omega)] at h2
      have hlt : sl.head < sl.inner.flatCells.length := by
        rw [flatCells_length]
        have := strand_z_lt_total inv
        omega
      rw [List.get?_eq_none] at h2
      omega
  have hext : (Slab.extend_with sl newv).inner =
      ⟨sl.inner.blocks ++
        [⟨(List.range (sl.inner.tail_capacity * 2)).map
          (fun j => Slot.new newv (sl.inner.capacity + j))⟩]⟩ := by
    show sl.inner.extend_with (fun k => Slot.new newv k) sl.inner.capacity = _
    unfold SlabList.extend_with
    cases hb : sl.inner.blocks with
    | nil => exact absurd hb inv.nonnil
    | cons x xs => rfl
  have hblen : ((List.range (sl.inner.tail_capacity * 2)).map
      (fun j => Slot.new newv (sl.inner.capacity + j))).length =
        sl.inner.tail_capacity * 2 := by
    rw [List.length_map, List.length_range]
  have htail' : (Slab.extend_with sl newv).inner.tail_capacity =
      sl.inner.tail_capacity * 2 := by
    rw [hext]
    rw [tail_capacity_append_singleton]
    exact hblen
  have hcap' : 2 * sl.inner.tail_capacity ≤ (Slab.extend_with sl newv).inner.capacity := by
    have hle := tail_capacity_le_capacity (Slab.extend_with sl newv).inner
    rw [htail'] at hle
    omega
  have hKlt : K < sl.inner.blocks.length := inv.kbound
  refine ⟨?_, ?_, ?_, ?_, ?_, ?_, ?_, hheadz, ?_, ?_⟩
  · rw [hext]
    intro hnl
    have h2 := congrArg List.length hnl
    rw [List.length_append] at h2
    simp at h2
  · rw [hext]
    intro b hb
    rcases List.mem_append.mp hb with hb1 | hb2
    · exact inv.cellsnn b hb1
    · have hbs : b = ⟨(List.range (sl.inner.tail_capacity * 2)).map
          (fun j => Slot.new newv (sl.inner.capacity + j))⟩ := List.mem_singleton.mp hb2
      rw [hbs]
      intro hnl
      have h2 := congrArg List.length hnl
      rw [hblen] at h2
      simp at h2
      omega
  · rw [hext]
    show K < (sl.inner.blocks ++ [(⟨(List.range (sl.inner.tail_capacity * 2)).map
      (fun j => Slot.new newv (sl.inner.capacity + j))⟩ : Block (Slot T))]).length
    rw [List.length_append]
    omega
  · rw [hext]
    show (((sl.inner.blocks ++ [(⟨(List.range (sl.inner.tail_capacity * 2)).map
      (fun j => Slot.new newv (sl.inner.capacity + j))⟩ : Block (Slot T))]).map
        (fun b => b.cells.length)).take K).sum = z
    rw [List.map_append]
    rw [List.take_append_of_le_length (by rw [List.length_map]; omega)]
    exact inv.zflat
  · rw [hext]
    intro bK hbK c0 hc0
    rw [show ((⟨sl.inner.blocks ++ [⟨(List.range (sl.inner.tail_capacity * 2)).map
      (fun j => Slot.new newv (sl.inner.capacity + j))⟩]⟩ :
        SlabList (Slot T)).blocks.get? K) = sl.inner.blocks.get? K from
          List.get?_append hKlt] at hbK
    exact inv.zcell bK hbK c0 hc0
  · rw [hext]
    intro k b hb j c hc hidx0
    by_cases hk : k < sl.inner.blocks.length
    · rw [show ((⟨sl.inner.blocks ++ [⟨(List.range (sl.inner.tail_capacity * 2)).map
        (fun j => Slot.new newv (sl.inner.capacity + j))⟩]⟩ :
          SlabList (Slot T)).blocks.get? k) = sl.inner.blocks.get? k from
            List.get?_append hk] at hb
      exact inv.idxz k b hb j c hc hidx0
    · have hb' : b = ⟨(List.range (sl.inner.tail_capacity * 2)).map
          (fun j => Slot.new newv (sl.inner.capacity + j))⟩ := by
        have hb2 : (sl.inner.blocks ++ [(⟨(List.range (sl.inner.tail_capacity * 2)).map
          (fun j => Slot.new newv (sl.inner.capacity + j))⟩ : Block (Slot T))]).get? k =
            some b := hb
        rw [List.get?_append_right (by omega)] at hb2
        cases hkk : k - sl.inner.blocks.length with
        | zero => rw [hkk] at hb2; exact Eq.symm (by simpa using hb2)
        | succ m =>
          rw [hkk] at hb2
          exact absurd hb2 (by simp)
      rw [hb'] at hc
      rw [List.get?_map] at hc
      by_cases hjlt : j < sl.inner.tail_capacity * 2
      · rw [List.get?_range hjlt] at hc
        simp only [Option.map_some'] at hc
        obtain rfl : Slot.new newv (sl.inner.capacity + j) = c := by injection hc
        exfalso
        have h4 : sl.inner.capacity + j = z := hidx0
        have h5 := inv.zcap
        omega
      · rw [List.get?_eq_none.mpr (by rw [List.length_range]; omega)] at hc
        cases hc
  · rw [hext]
    intro b hb c hc hrc0
    rcases List.mem_append.mp hb with hb1 | hb2
    · exact inv.rcnext b hb1 c hc hrc0
    · have hbs : b = ⟨(List.range (sl.inner.tail_capacity * 2)).map
          (fun j => Slot.new newv (sl.inner.capacity + j))⟩ := List.mem_singleton.mp hb2
      rw [hbs] at hc
      obtain ⟨j, hj, rfl⟩ := List.mem_map.mp hc
      show sl.inner.capacity + j + 1 ≠ z
      have h5 := inv.zcap
      omega
  · have h5 := inv.zwalk
    omega
  · rw [htail']
    have h5 := inv.zwalk
    omega

/-- The pool-level stranding invariant is preserved by every operation. -/
theorem strand_step {T : Type} [Clear T] {newv : T} {z K : Nat}
    {s s' : PoolState (SlabList (Slot T))} (inv : GStrandPool z K s)
    (hstep : GStep newv s s') : GStrandPool z K s' := by
  obtain ⟨sinv, hnz⟩ := inv
  cases hstep with
  | @checkout i slab' slot hok hslot =>
    obtain ⟨rfl, hlt, slot2, hsome, hrc, rfl⟩ := (try_checkout_ok_iff _ _ _ _).mp hok
    have hsome' : s.slab.inner.with_idx s.slab.head = some slot2 := hsome
    have hslot' : s.slab.inner.with_idx s.slab.head = some slot := hslot
    obtain rfl : slot = slot2 := by rw [hslot'] at hsome'; injection hsome'
    have hslot'' : s.slab.inner.with_idx s.slab.head = some slot := hslot
    have hnext : slot.next ≠ z := by
      obtain ⟨k, o, b, hres, hb, hc⟩ := with_idx_some_elim _ _ _ hslot''
      exact sinv.rcnext b (List.get?_mem hb) slot (List.get?_mem hc) hrc
    constructor
    · exact strand_write sinv s.slab.head sinv.headz slot
        ({ slot with ref_count := 1, item := Clear.clear slot.item })
        hslot'' (fun h0 => absurd h0 (by simp)) rfl slot.next (s.slab.used + 1) hnext
    · intro h hmem
      rcases List.mem_cons.mp hmem with rfl | hmem
      · exact strand_cell_idx_ne sinv sinv.headz hslot''
      · exact hnz h hmem
  | @grow hcap =>
    exact ⟨strand_grow sinv newv hcap, hnz⟩
  | @downgrade i hs1 hs2 hsplit =>
    have hmem : (HKind.owned, i) ∈ s.handles := by
      rw [hsplit]
      exact List.mem_append_right _ (List.mem_cons_self _ _)
    have hi : i ≠ z := hnz _ hmem
    refine ⟨strand_drop (strand_clone sinv i hi) i hi, ?_⟩
    intro h hmem2
    rcases List.mem_append.mp hmem2 with h1 | h2
    · exact hnz h (by rw [hsplit]; exact List.mem_append_left _ h1)
    · rcases List.mem_cons.mp h2 with rfl | h3
      · exact hi
      · exact hnz h
          (by rw [hsplit]; exact List.mem_append_right _ (List.mem_cons_of_mem _ h3))
  | @clone i hmem =>
    have hi : i ≠ z := hnz _ hmem
    refine ⟨strand_clone sinv i hi, ?_⟩
    intro h hmem2
    rcases List.mem_cons.mp hmem2 with rfl | hmem2
    · exact hi
    · exact hnz h hmem2
  | @drop h hs1 hs2 hsplit =>
    have hmem : h ∈ s.handles := by
      rw [hsplit]
      exact List.mem_append_right _ (List.mem_cons_self _ _)
    have hi : h.2 ≠ z := hnz _ hmem
    refine ⟨strand_drop sinv h.2 hi, ?_⟩
    intro g hg
    rcases List.mem_append.mp hg with h1 | h2
    · exact hnz g (by rw [hsplit]; exact List.mem_append_left _ h1)
    · exact hnz g
        (by rw [hsplit]; exact List.mem_append_right _ (List.mem_cons_of_mem _ h2))

/-- The stranding invariant persists along every reachable suffix. -/
theorem strand_reach {T : Type} [Clear T] {newv : T} {z K : Nat}
    {s0 u : PoolState (SlabList (Slot T))} (hinv : GStrandPool z K s0)
    (h : GReach newv s0 u) : GStrandPool z K u := by
  induction h with
  | init => exact hinv
  | step _ hstep ih => exact strand_step ih hstep
/-- Growing the unallocated (capacity-0) pool strands index 0: the
post-extension state satisfies the stranding invariant at z = 0, K = 0. -/
theorem strand_start_empty {T : Type} (newv : T) (us : Nat) :
    GStrandPool 0 0 (⟨Inner.grow (⟨⟨[]⟩, 0, us⟩ : Slab (SlabList (Slot T))) newv, []⟩ :
      PoolState (SlabList (Slot T))) := by
  have hgrow : Inner.grow (⟨⟨[]⟩, 0, us⟩ : Slab (SlabList (Slot T))) newv =
      ⟨⟨[⟨(List.range 8).map (fun j => Slot.new newv (0 + j))⟩]⟩, 1, us⟩ := rfl
  rw [hgrow]
  have hgetc : ∀ j c,
      ((List.range 8).map (fun j => Slot.new newv (0 + j))).get? j = some c →
      c = Slot.new newv (0 + j) ∧ j < 8 := by
    intro j c hj
    have hjl : j < 8 := by
      have h2 := (List.get?_eq_some.mp hj).1
      rw [List.length_map, List.length_range] at h2
      exact h2
    rw [List.get?_map, List.get?_range hjl] at hj
    simp only [Option.map_some'] at hj
    exact ⟨Eq.symm (by injection hj), hjl⟩
  constructor
  · refine ⟨by simp, ?_, by simp, rfl, ?_, ?_, ?_, by simp, ?_, ?_⟩
    · intro b hb
      have hbs : b = ⟨(List.range 8).map (fun j => Slot.new newv (0 + j))⟩ :=
        List.mem_singleton.mp hb
      rw [hbs]
      intro hnl
      have h2 := congrArg List.length hnl
      rw [List.length_map, List.length_range] at h2
      simp at h2
    · intro bK hbK c0 hc0
      have hbs : some (⟨(List.range 8).map (fun j => Slot.new newv (0 + j))⟩ :
          Block (Slot T)) = some bK := hbK
      obtain rfl : (⟨(List.range 8).map (fun j => Slot.new newv (0 + j))⟩ :
          Block (Slot T)) = bK := by injection hbs
      obtain ⟨rfl, -⟩ := hgetc 0 c0 hc0
      exact ⟨by simp [Slot.new], rfl⟩
    · intro k b hb j c hc hidx0
      have hk0 : k = 0 := by
        have h2 : k < 1 := (List.get?_eq_some.mp hb).1
        omega
      subst hk0
      have hbs : some (⟨(List.range 8).map (fun j => Slot.new newv (0 + j))⟩ :
          Block (Slot T)) = some b := hb
      obtain rfl : (⟨(List.range 8).map (fun j => Slot.new newv (0 + j))⟩ :
          Block (Slot T)) = b := by injection hbs
      obtain ⟨rfl, -⟩ := hgetc j c hc
      have h3 : 0 + j = 0 := hidx0
      omega
    · intro b hb c hc hrc
      have hbs : b = ⟨(List.range 8).map (fun j => Slot.new newv (0 + j))⟩ :=
        List.mem_singleton.mp hb
      rw [hbs] at hc
      obtain ⟨j, hj, rfl⟩ := List.mem_map.mp hc
      show 0 + j + 1 ≠ 0
      omega
    · show (0 : Nat) < (⟨[⟨(List.range 8).map (fun j => Slot.new newv (0 + j))⟩]⟩ :
        SlabList (Slot T)).capacity
      rw [sb_capacity, List.length_map, List.length_range]
      omega
    · exact Nat.zero_le _
  · intro h hmem
    cases hmem

/-- Growing a single-block pool at AtCapacity strands the slot whose index
equals the pre-extension head (the block's length). -/
theorem strand_start_single {T : Type} [Clear T] (newv : T)
    (cells : List (Slot T)) (hd us : Nat) (hs : List (HKind × Nat))
    (hcne : cells ≠ [])
    (hfinv : FInv (⟨⟨cells, hd, us⟩, hs⟩ : PoolState (ArrayStore T)))
    (hcov : CovInv (⟨cells, hd, us⟩ : Slab (ArrayStore T)))
    (hcap : Slab.try_checkout (listOps T)
      (⟨⟨[⟨cells⟩]⟩, hd, us⟩ : Slab (SlabList (Slot T))) = .error .AtCapacity) :
    GStrandPool hd 1
      (⟨Inner.grow (⟨⟨[⟨cells⟩]⟩, hd, us⟩ : Slab (SlabList (Slot T))) newv, hs⟩ :
        PoolState (SlabList (Slot T))) := by
  have hgeL : hd ≥ cells.length := by
    rcases try_checkout_atCapacity_elim _ _ hcap with hge | hnone
    · have h2 : hd ≥ (⟨[⟨cells⟩]⟩ : SlabList (Slot T)).capacity := hge
      rw [sb_capacity] at h2
      exact h2
    · have h2 : (⟨[⟨cells⟩]⟩ : SlabList (Slot T)).with_idx hd = none := hnone
      rw [sb_with_idx] at h2
      exact List.get?_eq_none.mp h2
  have hleL : hd ≤ cells.length := by
    obtain ⟨L, hchain, -, -, -⟩ := hcov
    exact freeChain_head_le hchain
  have hhd : hd = cells.length := le_antisymm hleL hgeL
  have htpos : 1 ≤ cells.length :=
    Nat.pos_of_ne_zero (fun h0 => hcne (List.length_eq_zero.mp h0))
  have hnocell : ∀ p c, cells.get? p = some c → c.ref_count = 0 →
      c.next ≠ cells.length := by
    intro p c hp hrc
    obtain ⟨L, hchain, hnodup, hcover, hnb⟩ := hcov
    have hchain' : FreeChain cells hd L := hchain
    rw [hhd] at hchain'
    have hLnil : L = [] := freeChain_terminal hchain'
    rcases hcover p c hp hrc with hin | hne
    · rw [hLnil] at hin
      cases hin
    · exact hne
  have hext : Inner.grow (⟨⟨[⟨cells⟩]⟩, hd, us⟩ : Slab (SlabList (Slot T))) newv =
      ⟨⟨[⟨cells⟩, ⟨(List.range (cells.length * 2)).map
        (fun j => Slot.new newv (cells.length + j))⟩]⟩, hd + 1, us⟩ := by
    show Slab.extend_with _ newv = _
    simp only [Slab.extend_with, SlabList.extend_with]
    rw [sb_capacity, sb_tail_capacity]
    rfl
  have hcaps := twoblock_caps (⟨cells⟩ : Block (Slot T))
    (⟨(List.range (cells.length * 2)).map
      (fun j => Slot.new newv (cells.length + j))⟩ : Block (Slot T))
    cells.length htpos rfl
    (by show ((List.range (cells.length * 2)).map
          (fun j => Slot.new newv (cells.length + j))).length = 2 * cells.length
        rw [List.length_map, List.length_range]
        omega)
  rw [hext]
  constructor
  · refine ⟨by simp, ?_, ?_, ?_, ?_, ?_, ?_, ?_, ?_, ?_⟩
    · intro b hb
      rcases List.mem_cons.mp hb with rfl | hb2
      · exact hcne
      · have hb3 : b = ⟨(List.range (cells.length * 2)).map
            (fun j => Slot.new newv (cells.length + j))⟩ := List.mem_singleton.mp hb2
        rw [hb3]
        intro hnl
        have h2 := congrArg List.length hnl
        rw [List.length_map, List.length_range] at h2
        simp only [List.length_nil] at h2
        omega
    · show (1 : Nat) < 2
      omega
    · show cells.length + 0 = hd
      omega
    · intro bK hbK c0 hc0
      have hbs : some (⟨(List.range (cells.length * 2)).map
          (fun j => Slot.new newv (cells.length + j))⟩ : Block (Slot T)) = some bK := hbK
      obtain rfl : (⟨(List.range (cells.length * 2)).map
          (fun j => Slot.new newv (cells.length + j))⟩ : Block (Slot T)) = bK := by
        injection hbs
      have hlt0 : 0 < cells.length * 2 := by omega
      rw [List.get?_map, List.get?_range hlt0] at hc0
      simp only [Option.map_some'] at hc0
      obtain rfl : Slot.new newv (cells.length + 0) = c0 := by injection hc0
      constructor
      · show cells.length + 0 = hd
        omega
      · rfl
    · intro k b hb j c hc hidx0
      by_cases hk : k = 0
      · subst hk
        exfalso
        have hbs : some (⟨cells⟩ : Block (Slot T)) = some b := hb
        obtain rfl : (⟨cells⟩ : Block (Slot T)) = b := by injection hbs
        have hj : j < cells.length := (List.get?_eq_some.mp hc).1
        have hix : c.idx = j := hfinv.idxs j c hc
        omega
      · by_cases hk1 : k = 1
        · subst hk1
          have hbs : some (⟨(List.range (cells.length * 2)).map
              (fun j => Slot.new newv (cells.length + j))⟩ : Block (Slot T)) =
                some b := hb
          obtain rfl : (⟨(List.range (cells.length * 2)).map
              (fun j => Slot.new newv (cells.length + j))⟩ : Block (Slot T)) = b := by
            injection hbs
          have hjlt : j < cells.length * 2 := by
            have h2 := (List.get?_eq_some.mp hc).1
            rw [List.length_map, List.length_range] at h2
            exact h2
          rw [List.get?_map, List.get?_range hjlt] at hc
          simp only [Option.map_some'] at hc
          obtain rfl : Slot.new newv (cells.length + j) = c := by injection hc
          have h3 : cells.length + j = hd := hidx0
          exact ⟨rfl, by omega⟩
        · exfalso
          have h2 : k < 2 := (List.get?_eq_some.mp hb).1
          omega
    · intro b hb c hc hrc
      rcases List.mem_cons.mp hb with rfl | hb2
      · obtain ⟨p, hp⟩ := List.mem_iff_get?.mp hc
        have h2 := hnocell p c hp hrc
        omega
      · have hb3 : b = ⟨(List.range (cells.length * 2)).map
            (fun j => Slot.new newv (cells.length + j))⟩ := List.mem_singleton.mp hb2
        rw [hb3] at hc
        obtain ⟨j, hj, rfl⟩ := List.mem_map.mp hc
        show cells.length + j + 1 ≠ hd
        omega
    · show hd + 1 ≠ hd
      omega
    · show hd < (⟨[⟨cells⟩, ⟨(List.range (cells.length * 2)).map
        (fun j => Slot.new newv (cells.length + j))⟩]⟩ : SlabList (Slot T)).capacity
      rw [hcaps.2]
      omega
    · show hd ≤ (⟨[⟨cells⟩, ⟨(List.range (cells.length * 2)).map
        (fun j => Slot.new newv (cells.length + j))⟩]⟩ : SlabList (Slot T)).tail_capacity
      rw [hcaps.1]
      omega
  · intro h hmem
    have h2 : h.2 < cells.length := hfinv.hbound h hmem
    omega
/-- C9: Slab::extend_with increments the free-list head by one after
appending the new block (first conjunct, any block-list slab).
Consequently, in every execution of the growable pool from construction at
any capacity, every extension — checkout invokes Inner::grow exactly when
the slab reports AtCapacity — permanently strands the slot whose index
equals the pre-extension head z: in every state reachable after the
extension that slot still exists (at offset 0 of some block) with index z
and reference count 0, the free-list head avoids z and so does the next
link of every zero-count slot (z is never on the free list), no checkout
ever returns index z or a slot whose index field is z, and no live handle
refers to z. -/
theorem c9_extension_strands_slot :
    (∀ (T : Type) (sl : Slab (SlabList (Slot T))) (newv : T),
      (Slab.extend_with sl newv).head = sl.head + 1) ∧
    (∀ (T : Type) [inst : Clear T] (newv : T) (settings : Settings) (cap : Nat)
      (s : PoolState (SlabList (Slot T))),
      GReach newv ⟨growableMake settings cap newv, []⟩ s →
      Slab.try_checkout (listOps T) s.slab = .error .AtCapacity →
      ∀ u, GReach newv ⟨Inner.grow s.slab newv, s.handles⟩ u →
        (∃ bidx bK c0, u.slab.inner.blocks.get? bidx = some bK ∧
          bK.cells.get? 0 = some c0 ∧ c0.idx = s.slab.head ∧ c0.ref_count = 0) ∧
        u.slab.head ≠ s.slab.head ∧
        (∀ b ∈ u.slab.inner.blocks, ∀ c ∈ b.cells,
          c.ref_count = 0 → c.next ≠ s.slab.head) ∧
        (∀ i slab', Slab.try_checkout (listOps T) u.slab = .ok (i, slab') →
          i ≠ s.slab.head ∧
          ∀ slot, (listOps T).getSlot u.slab.inner i = some slot →
            slot.idx ≠ s.slab.head) ∧
        (∀ h ∈ u.handles, h.2 ≠ s.slab.head)) := by
  constructor
  · intro T sl newv
    rfl
  · intro T inst newv settings cap s hreach hcap u hu
    have hbase := gbase_reach hreach
    have hstrand : ∃ K, GStrandPool s.slab.head K
        (⟨Inner.grow s.slab newv, s.handles⟩ : PoolState (SlabList (Slot T))) := by
      obtain ⟨⟨⟨blocks⟩, hd, us⟩, hs⟩ := s
      rcases hbase with ⟨hnil, hhead, hhs⟩ | ⟨⟨cells, hblocks, hcne⟩, hfinv, hcov⟩ |
        ⟨t, ht, hlens, hhead, hcells⟩
      · have hnil' : blocks = [] := hnil
        have hhead' : hd = 0 := hhead
        have hhs' : hs = [] := hhs
        subst hnil'
        subst hhead'
        subst hhs'
        exact ⟨0, strand_start_empty newv us⟩
      · have hblocks' : blocks = [⟨cells⟩] := hblocks
        subst hblocks'
        rw [flatPool_sb cells hd us hs] at hfinv
        rw [show flatSlab (⟨⟨⟨[⟨cells⟩]⟩, hd, us⟩, hs⟩ :
          PoolState (SlabList (Slot T))).slab = ⟨cells, hd, us⟩ from
            flatSlab_sb cells hd us] at hcov
        exact ⟨1, strand_start_single newv cells hd us hs hcne hfinv hcov hcap⟩
      · exfalso
        obtain ⟨b1, b2, hb12, hl1, hl2⟩ := blocks_of_lens_two ⟨blocks⟩ t hlens
        have hb12' : blocks = [b1, b2] := hb12
        subst hb12'
        rcases try_checkout_atCapacity_elim _ _ hcap with hge | hnone
        · have hcap4 : (⟨[b1, b2]⟩ : SlabList (Slot T)).capacity = 4 * t :=
            (twoblock_caps b1 b2 t ht hl1 hl2).2
          have hge2 : hd ≥ (⟨[b1, b2]⟩ : SlabList (Slot T)).capacity := hge
          rw [hcap4] at hge2
          have hhd3 : hd ≤ 3 * t := hhead
          omega
        · obtain ⟨a, ha⟩ := twoblock_lookup b1 b2 t hd ht hl1 hl2 hhead
          have hnone2 : (⟨[b1, b2]⟩ : SlabList (Slot T)).with_idx hd = none := hnone
          rw [ha] at hnone2
          exact absurd hnone2 (by simp)
    obtain ⟨K, hstart⟩ := hstrand
    obtain ⟨sinv, hnz⟩ := strand_reach hstart hu
    refine ⟨?_, sinv.headz, sinv.rcnext, ?_, hnz⟩
    · obtain ⟨bK, hbK⟩ : ∃ bK, u.slab.inner.blocks.get? K = some bK := by
        rw [List.get?_eq_get sinv.kbound]
        exact ⟨_, rfl⟩
      obtain ⟨c0, hc0⟩ : ∃ c0, bK.cells.get? 0 = some c0 := by
        have hne := sinv.cellsnn bK (List.get?_mem hbK)
        cases hcc : bK.cells with
        | nil => exact absurd hcc hne
        | cons x xs => exact ⟨x, by simp [hcc]⟩
      obtain ⟨hidx, hrc⟩ := sinv.zcell bK hbK c0 hc0
      exact ⟨K, bK, c0, hbK, hc0, hidx, hrc⟩
    · intro i slab' hok
      obtain ⟨rfl, hlt, slot2, hsome, hrc, rfl⟩ := (try_checkout_ok_iff _ _ _ _).mp hok
      refine ⟨sinv.headz, ?_⟩
      intro slot hslot
      have hslot' : u.slab.inner.with_idx u.slab.head = some slot := hslot
      exact strand_cell_idx_ne sinv sinv.headz hslot'

/-- C9 witness: the capacity-0 pool at construction reports AtCapacity;
growing it once (pre-extension head 0) leaves the slot of index 0 stranded
in the post-extension state: it exists at offset 0 of a block with count 0
while the free-list head avoids index 0. -/
theorem c9_witness :
    (Slab.extend_with c9empty (0 : Nat)).head = c9empty.head + 1 ∧
    Slab.try_checkout (listOps Nat)
      (⟨growableMake ⟨.Double⟩ 0 (0 : Nat), []⟩ :
        PoolState (SlabList (Slot Nat))).slab = .error .AtCapacity ∧
    (∃ bidx bK c0, (⟨Inner.grow (growableMake ⟨.Double⟩ 0 (0 : Nat)) 0, []⟩ :
      PoolState (SlabList (Slot Nat))).slab.inner.blocks.get? bidx = some bK ∧
      bK.cells.get? 0 = some c0 ∧
      c0.idx = (⟨growableMake ⟨.Double⟩ 0 (0 : Nat), []⟩ :
        PoolState (SlabList (Slot Nat))).slab.head ∧ c0.ref_count = 0) ∧
    (⟨Inner.grow (growableMake ⟨.Double⟩ 0 (0 : Nat)) 0, []⟩ :
      PoolState (SlabList (Slot Nat))).slab.head ≠
      (⟨growableMake ⟨.Double⟩ 0 (0 : Nat), []⟩ :
        PoolState (SlabList (Slot Nat))).slab.head :=
  ⟨c9_extension_strands_slot.1 Nat c9empty 0,
   rfl,
   (c9_extension_strands_slot.2 Nat 0 ⟨Growth.Double⟩ 0
      ⟨growableMake ⟨Growth.Double⟩ 0 0, []⟩ GReach.init rfl
      ⟨Inner.grow (growableMake ⟨Growth.Double⟩ 0 0) 0, []⟩ GReach.init).1,
   (c9_extension_strands_slot.2 Nat 0 ⟨Growth.Double⟩ 0
      ⟨growableMake ⟨Growth.Double⟩ 0 0, []⟩ GReach.init rfl
      ⟨Inner.grow (growableMake ⟨Growth.Double⟩ 0 0) 0, []⟩ GReach.init).2.1⟩

end Natatorium
